import Mathlib

/-!
Verification of the JCDP Jacobian-chain scheduling core.

This file gives a shallow embedding, in Lean 4, of the operation algebra,
sequence queries, schedulers and optimiser pruning logic of the JCDP package
(`include/jcdp/operation.hpp`, `sequence.hpp`, `deviceSequence.hpp`,
`scheduler/scheduler.hpp`, `scheduler/priority_list.hpp`,
`scheduler/branch_and_bound.hpp`, `optimizer/branch_and_bound.hpp`), and
proves or refutes the specified properties about it.

General modelling conventions:
* `std::size_t` values are modelled as `Nat`.  All arithmetic in the modelled
  code paths (sums of costs, max of times, truncating division) stays within
  the non-negative range, and the sources never rely on wrap-around;
  subtraction only occurs as `start_time - old_thread_load` where
  `start_time >= old_thread_load`, matching truncated `Nat` subtraction.
* A `Sequence` (a `std::deque<Operation>`) and a `DeviceSequence`
  (a fixed-capacity `Operation` array plus a length) are both modelled as
  `List Operation`.
* Recursions of the C++ code that walk `parent` links (`Sequence::level`,
  `Sequence::critical_path`, the chain walk of `device_critical_path`) are
  modelled with an explicit fuel argument.  A fuel of `s.length` is enough
  for every parent chain that the C++ code finishes on (on inputs with a
  cyclic parent relation the C++ recursion does not terminate at all).
-/

set_option maxHeartbeats 1000000

namespace JCDP

/-- The `jcdp::Action` enumeration from `operation.hpp`. -/
inductive Action where
  | NONE
  | MULTIPLICATION
  | ACCUMULATION
  | ELIMINATION
deriving DecidableEq

/-- The `jcdp::Mode` enumeration from `operation.hpp`. -/
inductive Mode where
  | NONE
  | TANGENT
  | ADJOINT
deriving DecidableEq

/-- The `jcdp::Operation` record from `operation.hpp`: an elimination-DAG
node with its chain indices `(j, k, i)`, cost `fma` and schedule fields. -/
structure Operation where
  action : Action := Action.NONE
  mode : Mode := Mode.NONE
  j : Nat := 0
  k : Nat := 0
  i : Nat := 0
  fma : Nat := 0
  thread : Nat := 0
  start_time : Nat := 0
  is_scheduled : Bool := false
deriving DecidableEq

/-- `operator>` on `jcdp::Operation` (`operation.hpp` lines 48-58):
`opGt a b` means `a` is a producer for `b`. -/
def opGt (lhs rhs : Operation) : Bool :=
  rhs.action != Action.ACCUMULATION &&
    ((rhs.i == lhs.i && rhs.k == lhs.j) || (rhs.j == lhs.j && rhs.k + 1 == lhs.i))

/-- `operator<` on `jcdp::Operation` (`operation.hpp` lines 60-70):
`opLt a b` means `b` is a producer for `a`. -/
def opLt (lhs rhs : Operation) : Bool :=
  lhs.action != Action.ACCUMULATION &&
    ((lhs.i == rhs.i && lhs.k == rhs.j) || (lhs.j == rhs.j && lhs.k + 1 == rhs.i))

/-- Indexed access into a modelled sequence; the C++ `operator[]` asserts the
index in range, so the default element is only a totalisation device. -/
def getOp (s : List Operation) (idx : Nat) : Operation :=
  s.getD idx {}

/-- `Sequence::sequential_makespan` (`sequence.hpp` lines 51-57): the sum of
all `fma` costs. -/
def sequentialMakespan (s : List Operation) : Nat :=
  (s.map Operation.fma).sum

/-- `Sequence::count_accumulations` (`sequence.hpp` lines 171-175), and
likewise `count_accumulations` on a `DeviceSequence`
(`deviceSequence.hpp` lines 69-77). -/
def countAccumulations (s : List Operation) : Nat :=
  s.countP (fun op => op.action == Action.ACCUMULATION)

/-- `Sequence::parent` (`sequence.hpp` lines 73-85): the first index `idx`
(in scan order) whose operation has `op_idx`'s operation as a producer,
i.e. the first consumer of the operation at `op_idx`. -/
def seqParent (s : List Operation) (opIdx : Nat) : Option Nat :=
  (List.range s.length).find? (fun idx => opLt (getOp s idx) (getOp s opIdx))

/-- `Sequence::level` (`sequence.hpp` lines 87-93), with explicit fuel for
the parent-chain recursion. -/
def levelFuel (s : List Operation) : Nat → Nat → Nat
  | 0, _ => 1
  | fuel + 1, opIdx =>
    match seqParent s opIdx with
    | some p => levelFuel s fuel p + 1
    | none => 1

/-- `Sequence::level` with the canonical fuel `s.length`, which suffices for
every terminating parent chain. -/
def seqLevel (s : List Operation) (opIdx : Nat) : Nat :=
  levelFuel s s.length opIdx

/-- `Sequence::critical_path(op_idx, start_time)` (`sequence.hpp` lines
103-113), with explicit fuel for the parent-chain recursion: at each step the
running start is `max start_time (op.start_time)`, the running end adds
`op.fma`, and the walk continues through `parent`. -/
def criticalPathFrom (s : List Operation) : Nat → Nat → Nat → Nat
  | 0, _, st => st
  | fuel + 1, opIdx, st0 =>
    let st := max st0 (getOp s opIdx).start_time
    let endTime := st + (getOp s opIdx).fma
    match seqParent s opIdx with
    | some p => criticalPathFrom s fuel p endTime
    | none => endTime

/-- Maximum-accumulating fold, the common loop shape of the `max` queries of
`sequence.hpp` and `deviceSequence.hpp`. -/
def maxFold (f : Nat → Nat) (l : List Nat) (a : Nat) : Nat :=
  l.foldl (fun acc i => max acc (f i)) a

/-- `Sequence::critical_path()` (`sequence.hpp` lines 95-101): the maximum of
`critical_path(op_idx)` over all operations. -/
def criticalPath (s : List Operation) : Nat :=
  maxFold (fun idx => criticalPathFrom s s.length idx 0) (List.range s.length) 0

/-- The scan of `Sequence::earliest_start` over a general index list. -/
def maxOverProducers (s : List Operation) (opIdx : Nat) (l : List Nat) (a : Nat) : Nat :=
  l.foldl
    (fun acc idx =>
      if opLt (getOp s opIdx) (getOp s idx) then
        max acc ((getOp s idx).start_time + (getOp s idx).fma)
      else acc) a

/-- `Sequence::earliest_start` (`sequence.hpp` lines 142-169): the maximum of
`start_time + fma` over all producers of the operation at `op_idx` (`0` when
there is none). -/
def earliestStart (s : List Operation) (opIdx : Nat) : Nat :=
  maxOverProducers s opIdx (List.range s.length) 0

/-- `Sequence::is_schedulable` (`sequence.hpp` lines 115-134): every producer
of the operation at `op_idx` is already scheduled. -/
def isSchedulable (s : List Operation) (opIdx : Nat) : Bool :=
  (List.range s.length).all
    (fun idx => !(opLt (getOp s opIdx) (getOp s idx)) || (getOp s idx).is_scheduled)

/-- `Sequence::makespan()` with no thread filter (`sequence.hpp` lines
38-49): the maximum of `start_time + fma` over all operations. -/
def seqMakespan (s : List Operation) : Nat :=
  s.foldl (fun acc op => max acc (op.start_time + op.fma)) 0

/-- `MAX_SEQUENCE_LENGTH` from `deviceSequence.hpp` line 12. -/
def MAX_SEQUENCE_LENGTH : Nat := 40

/-- The inner chain walk of `device_critical_path` (`deviceSequence.hpp`
lines 142-162): starting from the end time of one operation, repeatedly step
to the first consumer (the same scan as `seqParent`) and take the maximum of
the end times seen, with explicit fuel for the while loop. -/
def deviceChainTime (s : List Operation) : Nat → Nat → Nat → Nat
  | 0, _, time => time
  | fuel + 1, current, time =>
    match seqParent s current with
    | some p =>
      deviceChainTime s fuel p (max time ((getOp s p).start_time + (getOp s p).fma))
    | none => time

/-- `device_critical_path` (`deviceSequence.hpp` lines 132-170). -/
def deviceCriticalPath (s : List Operation) : Nat :=
  maxFold
    (fun idx => deviceChainTime s s.length idx
      ((getOp s idx).start_time + (getOp s idx).fma))
    (List.range s.length) 0

/-- `Scheduler::schedule` (`scheduler/scheduler.hpp` lines 31-45): the
effective thread count handed to `schedule_impl` - the number of
accumulations, capped below by a positive requested count. -/
def scheduleUsableThreads (s : List Operation) (threads : Nat) : Nat :=
  if 0 < threads ∧ threads < countAccumulations s then threads
  else countAccumulations s

/-! ### The specification-side mirror of the critical-path query (for C4)

`specChainCost` follows the words of the spec sentence for claim C4 ("the
accumulated cost along the chain `u -> parent(u) -> ...`, where at each step
the running end time is `max(start_time of that operation, accumulated end so
far)` plus that operation's `fma`"), as an iterative fold over the explicit
parent chain, to be compared against the recursive `criticalPathFrom` of the
source. -/

/-- The explicit parent chain starting at `opIdx` (inclusive), cut off by
fuel exactly like `criticalPathFrom`. -/
def parentChain (s : List Operation) : Nat → Nat → List Nat
  | 0, _ => []
  | fuel + 1, opIdx =>
    opIdx ::
      (match seqParent s opIdx with
       | some p => parentChain s fuel p
       | none => [])

/-- Accumulated cost along an explicit chain of operation indices: at each
step the running end becomes `max acc start_time + fma`. -/
def specChainCost (s : List Operation) (chain : List Nat) : Nat :=
  chain.foldl
    (fun acc idx => max acc (getOp s idx).start_time + (getOp s idx).fma) 0

/-- The spec-side critical path: maximum accumulated chain cost over all
start operations. -/
def specCriticalPath (s : List Operation) : Nat :=
  (List.range s.length).foldl
    (fun acc idx => max acc (specChainCost s (parentChain s s.length idx))) 0

/-! ### The priority-list scheduler (`scheduler/priority_list.hpp`) -/

/-- The strict weak order of the priority queue comparator
(`priority_list.hpp` lines 40-50): compare by `level`, ties by `fma`. -/
def plKeyLt (s : List Operation) (i1 i2 : Nat) : Prop :=
  seqLevel s i1 < seqLevel s i2 ∨
    (seqLevel s i1 = seqLevel s i2 ∧ (getOp s i1).fma < (getOp s i2).fma)

instance (s : List Operation) (i1 i2 : Nat) : Decidable (plKeyLt s i1 i2) := by
  unfold plKeyLt; infer_instance

/-- A possible pop order of the `std::priority_queue` seeded with all indices
of `s`: a permutation of `0, ..., length - 1` in which no element is
comparator-below a later one (the queue always pops a maximal remaining
element; ties are popped in an unspecified order). -/
def validPopOrder (s : List Operation) (order : List Nat) : Prop :=
  order.Perm (List.range s.length) ∧ order.Pairwise (fun a b => ¬plKeyLt s a b)

/-- The reset loop of both schedulers (`priority_list.hpp` lines 52-55,
`branch_and_bound.hpp` lines 41-44): clear all `is_scheduled` flags. -/
def resetScheduled (s : List Operation) : List Operation :=
  s.map (fun op => { op with is_scheduled := false })

/-- The thread-selection scan of `PriorityListScheduler::schedule_impl`
(`priority_list.hpp` lines 62-83): starting from thread `0`, scan threads
`1, ..., P - 1` and move to `t` when its start is strictly earlier, or equal
with strictly less idle insertion.  Returns `(thread, start_time, idle)`. -/
def plChooseThread (loads : List Nat) (P earliest : Nat) : Nat × Nat × Nat :=
  (List.range (P - 1)).foldl
    (fun best tm1 =>
      let t := tm1 + 1
      let startOn := max (loads.getD t 0) earliest
      let idleOn := startOn - loads.getD t 0
      if startOn < best.2.1 then (t, startOn, idleOn)
      else if startOn = best.2.1 ∧ idleOn < best.2.2 then (t, startOn, idleOn)
      else best)
    (0, max (loads.getD 0 0) earliest, max (loads.getD 0 0) earliest - loads.getD 0 0)

/-- The scheduler state of `PriorityListScheduler::schedule_impl`: the
sequence being scheduled in place, and the per-thread loads. -/
structure PLState where
  ops : List Operation
  loads : List Nat
deriving DecidableEq

/-- One iteration of the queue loop of `PriorityListScheduler::schedule_impl`
(`priority_list.hpp` lines 58-88): place the popped operation on the chosen
thread at `max(thread_load, earliest_start)` and mark it scheduled. -/
def plStep (P : Nat) (st : PLState) (opIdx : Nat) : PLState :=
  let earliest := earliestStart st.ops opIdx
  let choice := plChooseThread st.loads P earliest
  let op := getOp st.ops opIdx
  { ops := st.ops.set opIdx
      { op with thread := choice.1, start_time := choice.2.1, is_scheduled := true }
    loads := st.loads.set choice.1 (choice.2.1 + op.fma) }

/-- `PriorityListScheduler::schedule_impl` (`priority_list.hpp` lines
33-91), parametrised by the pop order of the priority queue: reset the
schedule flags, then place every popped operation greedily. -/
def plRun (s : List Operation) (P : Nat) (order : List Nat) : List Operation :=
  (order.foldl (plStep P) { ops := resetScheduled s, loads := List.replicate P 0 }).ops

/-! ### The branch-and-bound scheduler (`scheduler/branch_and_bound.hpp`) -/

/-- Overwrite the `start_time` of the operation at `idx`. -/
def setStart (s : List Operation) (idx st : Nat) : List Operation :=
  s.set idx { getOp s idx with start_time := st }

/-- Overwrite the `thread` of the operation at `idx`. -/
def setThread (s : List Operation) (idx t : Nat) : List Operation :=
  s.set idx { getOp s idx with thread := t }

/-- Overwrite the `is_scheduled` flag of the operation at `idx`. -/
def setSched (s : List Operation) (idx : Nat) (b : Bool) : List Operation :=
  s.set idx { getOp s idx with is_scheduled := b }

/-- The mutable state of `BranchAndBoundScheduler::schedule_impl`
(`branch_and_bound.hpp` lines 32-50): the working copy, the thread loads,
the running makespan and idling time, the best makespan so far, the
caller's sequence receiving the best schedule (`out`), and a step counter
(`clock`) used only to drive the time-budget oracle. -/
structure BnbState where
  working : List Operation
  loads : List Nat
  mkspan : Nat
  idling : Nat
  best : Nat
  out : List Operation
  clock : Nat
deriving DecidableEq

/-!
The recursive lambda `schedule_op` of `BranchAndBoundScheduler::schedule_impl`
(`branch_and_bound.hpp` lines 52-134) is modelled by three mutually
recursive functions — the frame (`bnbFrame`), the loop over operation
indices (`bnbOpLoop`, returning `(state, everything_scheduled, stop)`), and
the loop over threads for one operation (`bnbThreadLoop`, returning
`(state, stop)`).  Every call consumes one unit of fuel; with enough fuel the
model runs the C++ search to completion, and the theorems below hold for
every fuel.  `timeOK` is an oracle for `remaining_time()`, consulted exactly
where the C++ polls it (at every frame entry) on a strictly increasing
clock; `timeOK := fun x => true` is the run that never exhausts its budget.
-/

mutual

/-- One DFS frame of `schedule_op` (`branch_and_bound.hpp` lines 52-132):
poll the timer, run the operation loop, and on a fully scheduled leaf update
the best makespan, copy the schedule back into `out`, and stop early when
the initial lower bound `lb0` is reached. -/
def bnbFrame (timeOK : Nat → Bool) (seqMs P lb0 : Nat) :
    Nat → BnbState → BnbState × Bool
  | 0, s => (s, false)
  | fuel + 1, s =>
    if !(timeOK s.clock) then ({ s with clock := s.clock + 1 }, true)
    else
      let r := bnbOpLoop timeOK seqMs P lb0 fuel
        (List.range s.working.length) true { s with clock := s.clock + 1 }
      if r.2.2 then (r.1, true)
      else if r.2.1 then
        if r.1.mkspan < r.1.best then
          let s2 := { r.1 with best := r.1.mkspan, out := r.1.working }
          if s2.best ≤ lb0 then (s2, true) else (s2, false)
        else (r.1, false)
      else (r.1, false)

/-- The loop over `op_idx` (`branch_and_bound.hpp` lines 58-115): skip
scheduled or unschedulable operations, otherwise mark the operation
scheduled, compute its earliest start, try every thread, and clear the flag
again afterwards. -/
def bnbOpLoop (timeOK : Nat → Bool) (seqMs P lb0 : Nat) :
    Nat → List Nat → Bool → BnbState → BnbState × Bool × Bool
  | 0, _, _, s => (s, false, false)
  | _ + 1, [], allSched, s => (s, allSched, false)
  | fuel + 1, idx :: rest, allSched, s =>
    if (getOp s.working idx).is_scheduled then
      bnbOpLoop timeOK seqMs P lb0 fuel rest allSched s
    else if !(isSchedulable s.working idx) then
      bnbOpLoop timeOK seqMs P lb0 fuel rest false s
    else
      let w1 := setSched s.working idx true
      let r := bnbThreadLoop timeOK seqMs P lb0 fuel idx
        (earliestStart w1 idx) (List.range P) false { s with working := w1 }
      if r.2 then (r.1, false, true)
      else
        bnbOpLoop timeOK seqMs P lb0 fuel rest false
          { r.1 with working := setSched r.1.working idx false }

/-- The loop over threads `t` for a fixed operation (`branch_and_bound.hpp`
lines 73-112): break after the first empty processor, otherwise tentatively
place the operation on `t`, recurse when `max(lb, makespan) < best`, and
restore the thread load, idling time, makespan and start time afterwards. -/
def bnbThreadLoop (timeOK : Nat → Bool) (seqMs P lb0 : Nat) :
    Nat → Nat → Nat → List Nat → Bool → BnbState → BnbState × Bool
  | 0, _, _, _, _, s => (s, false)
  | _ + 1, _, _, [], _, s => (s, false)
  | fuel + 1, idx, start, t :: ts, triedEmpty, s =>
    let load := s.loads.getD t 0
    if load = 0 ∧ triedEmpty then (s, false)
    else
      let startTime := max load start
      let fmaCost := (getOp s.working idx).fma
      let s1 : BnbState :=
        { s with
          working := setStart s.working idx startTime
          loads := s.loads.set t (startTime + fmaCost)
          idling := s.idling + (startTime - load)
          mkspan := max s.mkspan (startTime + fmaCost) }
      let lb := max ((s1.idling + seqMs) / P) (criticalPath s1.working)
      let r :=
        if max lb s1.mkspan < s1.best then
          bnbFrame timeOK seqMs P lb0 fuel { s1 with working := setThread s1.working idx t }
        else (s1, false)
      if r.2 then (r.1, true)
      else
        bnbThreadLoop timeOK seqMs P lb0 fuel idx start ts
          (triedEmpty || decide (load = 0))
          { r.1 with
            loads := r.1.loads.set t load
            idling := s.idling
            mkspan := s.mkspan
            working := setStart r.1.working idx ((getOp s.working idx).start_time) }

end

/-- `BranchAndBoundScheduler::schedule_impl` (`branch_and_bound.hpp` lines
29-136): compute the sequential makespan, reset the working copy, return the
critical path at once when it already meets the upper bound, and otherwise
run the DFS and return the best makespan together with the (possibly
rescheduled) caller sequence. -/
def bnbScheduleImpl (timeOK : Nat → Bool) (fuel : Nat) (sequence : List Operation)
    (P ub : Nat) : Nat × List Operation :=
  let seqMs := sequentialMakespan sequence
  let working := resetScheduled sequence
  let lb0 := criticalPath working
  if ub ≤ lb0 then (lb0, sequence)
  else
    let s0 : BnbState :=
      { working := working, loads := List.replicate P 0, mkspan := 0,
        idling := 0, best := ub, out := sequence, clock := 0 }
    let r := bnbFrame timeOK seqMs P lb0 fuel s0
    (r.1.best, r.1.out)

/-! ### Schedule-validity predicates (for claims C2 and C3) -/

/-- Every operation is marked scheduled. -/
def allScheduled (s : List Operation) : Prop :=
  ∀ u, u < s.length → (getOp s u).is_scheduled = true

/-- Claim C2's first conjunct: every operation starts no earlier than the
end of each of its producers. -/
def respectsPrecedence (s : List Operation) : Prop :=
  ∀ u v, u < s.length → v < s.length → opLt (getOp s u) (getOp s v) = true →
    (getOp s v).start_time + (getOp s v).fma ≤ (getOp s u).start_time

/-- Claim C2's second conjunct: operations on one thread occupy pairwise
disjoint half-open intervals `[start_time, start_time + fma)`. -/
def noThreadOverlap (s : List Operation) : Prop :=
  ∀ u v, u < s.length → v < s.length → u ≠ v →
    (getOp s u).thread = (getOp s v).thread →
    ∀ x, ¬((getOp s u).start_time ≤ x ∧ x < (getOp s u).start_time + (getOp s u).fma ∧
           (getOp s v).start_time ≤ x ∧ x < (getOp s v).start_time + (getOp s v).fma)

/-- A valid schedule in the sense of claims C2 and C3. -/
def validSchedule (s : List Operation) : Prop :=
  allScheduled s ∧ respectsPrecedence s ∧ noThreadOverlap s

instance (s : List Operation) : Decidable (allScheduled s) := by
  unfold allScheduled; infer_instance

/-- The schedule-independent fields of an operation agree. -/
def sameCore (a b : Operation) : Prop :=
  a.action = b.action ∧ a.mode = b.mode ∧ a.j = b.j ∧ a.k = b.k ∧
  a.i = b.i ∧ a.fma = b.fma

/-- Two sequences carry the same operations up to schedule fields. -/
def coreEq (s t : List Operation) : Prop :=
  s.length = t.length ∧
  ∀ u, u < s.length → sameCore (getOp s u) (getOp t u)

instance (a b : Operation) : Decidable (sameCore a b) := by
  unfold sameCore; infer_instance

instance (s t : List Operation) : Decidable (coreEq s t) := by
  unfold coreEq; infer_instance

instance (s : List Operation) (order : List Nat) :
    Decidable (validPopOrder s order) := by
  unfold validPopOrder; infer_instance

/-! ### Helper lemmas about list updates -/

theorem natSetSelf : ∀ (l : List Nat) (n : Nat), l.set n (l.getD n 0) = l := by
  intro l
  induction l with
  | nil => intro n; rfl
  | cons a l ih =>
    intro n
    cases n with
    | zero => rfl
    | succ m => simp only [List.getD_cons_succ, List.set_cons_succ, ih]

theorem opSetSelf : ∀ (s : List Operation) (n : Nat), s.set n (getOp s n) = s := by
  intro s
  induction s with
  | nil => intro n; rfl
  | cons a s ih =>
    intro n
    cases n with
    | zero => rfl
    | succ m =>
      simp only [getOp, List.getD_cons_succ, List.set_cons_succ]
      exact congrArg (a :: ·) (ih m)

theorem getOpSetEq : ∀ (s : List Operation) (n : Nat) (a : Operation),
    n < s.length → getOp (s.set n a) n = a := by
  intro s
  induction s with
  | nil => intro n a h; exact absurd h (by simp)
  | cons b s ih =>
    intro n a h
    cases n with
    | zero => rfl
    | succ m =>
      simp only [List.set_cons_succ, getOp, List.getD_cons_succ]
      exact ih m a (by simpa using h)

theorem getOpSetNe : ∀ (s : List Operation) (n m : Nat) (a : Operation),
    m ≠ n → getOp (s.set n a) m = getOp s m := by
  intro s
  induction s with
  | nil => intro n m a _; rfl
  | cons b s ih =>
    intro n m a h
    cases n with
    | zero =>
      cases m with
      | zero => exact absurd rfl h
      | succ m2 => rfl
    | succ n2 =>
      cases m with
      | zero => rfl
      | succ m2 =>
        simp only [List.set_cons_succ, getOp, List.getD_cons_succ]
        exact ih n2 m2 a (fun hx => h (congrArg Nat.succ hx))

theorem setOpOob : ∀ (s : List Operation) (n : Nat) (a : Operation),
    s.length ≤ n → s.set n a = s := by
  intro s
  induction s with
  | nil => intro n a _; rfl
  | cons b s ih =>
    intro n a h
    cases n with
    | zero => exact absurd h (by simp)
    | succ m =>
      simp only [List.set_cons_succ]
      exact congrArg (b :: ·) (ih m a (by simpa using h))

/-- Restoring the old `start_time` after a tentative write yields the
original list again (the undo in the thread loop is exact). -/
theorem setStartRestore (w : List Operation) (idx a : Nat) :
    setStart (setStart w idx a) idx (getOp w idx).start_time = w := by
  by_cases h : idx < w.length
  · unfold setStart
    rw [List.set_set, getOpSetEq w idx _ h]
    exact opSetSelf w idx
  · unfold setStart
    rw [setOpOob w idx _ (Nat.le_of_not_lt h),
      setOpOob w idx _ (Nat.le_of_not_lt h)]

/-- Restoring the old thread load after a tentative write yields the
original loads again. -/
theorem loadsRestore (l : List Nat) (t x : Nat) :
    (l.set t x).set t (l.getD t 0) = l := by
  rw [List.set_set]; exact natSetSelf l t

/-! ### Bound lemmas for the max-folds of the sequence queries -/

theorem maxFoldGeInit (f : Nat → Nat) :
    ∀ (l : List Nat) (a : Nat), a ≤ maxFold f l a := by
  intro l
  induction l with
  | nil => intro a; exact Nat.le_refl a
  | cons i l ih =>
    intro a
    exact Nat.le_trans (Nat.le_max_left a (f i)) (ih (max a (f i)))

theorem maxFoldGeElem (f : Nat → Nat) :
    ∀ (l : List Nat) (a i : Nat), i ∈ l → f i ≤ maxFold f l a := by
  intro l
  induction l with
  | nil => intro a i h; exact absurd h (List.not_mem_nil i)
  | cons j l ih =>
    intro a i h
    rcases List.mem_cons.mp h with h1 | h2
    · subst h1
      exact Nat.le_trans (Nat.le_max_right a (f i)) (maxFoldGeInit f l _)
    · exact ih _ i h2

theorem maxFoldLe (f : Nat → Nat) :
    ∀ (l : List Nat) (a B : Nat), a ≤ B → (∀ i ∈ l, f i ≤ B) →
      maxFold f l a ≤ B := by
  intro l
  induction l with
  | nil => intro a B ha _; exact ha
  | cons i l ih =>
    intro a B ha hi
    refine ih _ B (Nat.max_le.mpr ⟨ha, hi i (List.mem_cons_self i l)⟩) ?_
    intro j hj
    exact hi j (List.mem_cons_of_mem i hj)

theorem mopGeInit (s : List Operation) (opIdx : Nat) :
    ∀ (l : List Nat) (a : Nat), a ≤ maxOverProducers s opIdx l a := by
  intro l
  induction l with
  | nil => intro a; exact Nat.le_refl a
  | cons i l ih =>
    intro a
    by_cases h : opLt (getOp s opIdx) (getOp s i) = true
    · calc a ≤ max a ((getOp s i).start_time + (getOp s i).fma) := Nat.le_max_left _ _
        _ ≤ _ := by
          have := ih (max a ((getOp s i).start_time + (getOp s i).fma))
          simpa [maxOverProducers, h] using this
    · have := ih a
      simpa [maxOverProducers, h] using this

theorem mopGeElem (s : List Operation) (opIdx : Nat) :
    ∀ (l : List Nat) (a v : Nat), v ∈ l →
      opLt (getOp s opIdx) (getOp s v) = true →
      (getOp s v).start_time + (getOp s v).fma ≤ maxOverProducers s opIdx l a := by
  intro l
  induction l with
  | nil => intro a v h _; exact absurd h (List.not_mem_nil v)
  | cons j l ih =>
    intro a v h hp
    rcases List.mem_cons.mp h with h1 | h2
    · subst h1
      have step : maxOverProducers s opIdx (v :: l) a =
          maxOverProducers s opIdx l (max a ((getOp s v).start_time + (getOp s v).fma)) := by
        simp [maxOverProducers, hp]
      rw [step]
      exact Nat.le_trans (Nat.le_max_right _ _) (mopGeInit s opIdx l _)
    · by_cases hj : opLt (getOp s opIdx) (getOp s j) = true
      · have step : maxOverProducers s opIdx (j :: l) a =
            maxOverProducers s opIdx l (max a ((getOp s j).start_time + (getOp s j).fma)) := by
          simp [maxOverProducers, hj]
        rw [step]; exact ih _ v h2 hp
      · have step : maxOverProducers s opIdx (j :: l) a = maxOverProducers s opIdx l a := by
          simp [maxOverProducers, hj]
        rw [step]; exact ih a v h2 hp

theorem mopLe (s : List Operation) (opIdx : Nat) :
    ∀ (l : List Nat) (a B : Nat), a ≤ B →
      (∀ v ∈ l, opLt (getOp s opIdx) (getOp s v) = true →
        (getOp s v).start_time + (getOp s v).fma ≤ B) →
      maxOverProducers s opIdx l a ≤ B := by
  intro l
  induction l with
  | nil => intro a B ha _; exact ha
  | cons j l ih =>
    intro a B ha hall
    by_cases hj : opLt (getOp s opIdx) (getOp s j) = true
    · have step : maxOverProducers s opIdx (j :: l) a =
          maxOverProducers s opIdx l (max a ((getOp s j).start_time + (getOp s j).fma)) := by
        simp [maxOverProducers, hj]
      rw [step]
      refine ih _ B (Nat.max_le.mpr ⟨ha, hall j (List.mem_cons_self j l) hj⟩) ?_
      intro v hv hp
      exact hall v (List.mem_cons_of_mem j hv) hp
    · have step : maxOverProducers s opIdx (j :: l) a = maxOverProducers s opIdx l a := by
        simp [maxOverProducers, hj]
      rw [step]
      refine ih a B ha ?_
      intro v hv hp
      exact hall v (List.mem_cons_of_mem j hv) hp

theorem endFoldGeInit :
    ∀ (l : List Operation) (a : Nat),
      a ≤ l.foldl (fun acc op => max acc (op.start_time + op.fma)) a := by
  intro l
  induction l with
  | nil => intro a; exact Nat.le_refl a
  | cons op l ih =>
    intro a
    exact Nat.le_trans (Nat.le_max_left a _) (ih _)

theorem endFoldGeElem :
    ∀ (l : List Operation) (a : Nat) (op : Operation), op ∈ l →
      op.start_time + op.fma ≤ l.foldl (fun acc op => max acc (op.start_time + op.fma)) a := by
  intro l
  induction l with
  | nil => intro a op h; exact absurd h (List.not_mem_nil op)
  | cons p l ih =>
    intro a op h
    rcases List.mem_cons.mp h with h1 | h2
    · subst h1
      exact Nat.le_trans (Nat.le_max_right a _) (endFoldGeInit l _)
    · exact ih _ op h2

theorem endFoldLe :
    ∀ (l : List Operation) (a B : Nat), a ≤ B →
      (∀ op ∈ l, op.start_time + op.fma ≤ B) →
      l.foldl (fun acc op => max acc (op.start_time + op.fma)) a ≤ B := by
  intro l
  induction l with
  | nil => intro a B ha _; exact ha
  | cons p l ih =>
    intro a B ha hall
    refine ih _ B (Nat.max_le.mpr ⟨ha, hall p (List.mem_cons_self p l)⟩) ?_
    intro op hop
    exact hall op (List.mem_cons_of_mem p hop)

theorem getOpMem (s : List Operation) (idx : Nat) (h : idx < s.length) :
    getOp s idx ∈ s := by
  unfold getOp
  rw [List.getD_eq_getElem s _ h]
  exact List.getElem_mem h

/-! ### Congruence of the precedence relation under schedule-field changes -/

theorem sameCoreRefl (a : Operation) : sameCore a a :=
  ⟨rfl, rfl, rfl, rfl, rfl, rfl⟩

theorem opLtCongr {a a2 b b2 : Operation} (ha : sameCore a a2) (hb : sameCore b b2) :
    opLt a b = opLt a2 b2 := by
  obtain ⟨h1, _, h2, h3, h4, _⟩ := ha
  obtain ⟨g1, _, g2, g3, g4, _⟩ := hb
  unfold opLt
  rw [h1, h2, h3, h4]
  rw [g2, g4]

/-! ### The critical path is a lower bound on every valid schedule -/

/-- All operations carry a zero `start_time` (an unscheduled sequence as
produced by the optimiser). -/
def zeroStarts (s : List Operation) : Prop :=
  ∀ u, u < s.length → (getOp s u).start_time = 0

instance (s : List Operation) : Decidable (zeroStarts s) := by
  unfold zeroStarts; infer_instance

theorem endLeSeqMakespan (T : List Operation) (idx : Nat) (h : idx < T.length) :
    (getOp T idx).start_time + (getOp T idx).fma ≤ seqMakespan T :=
  endFoldGeElem T 0 (getOp T idx) (getOpMem T idx h)

theorem seqParentMem {s : List Operation} {idx p : Nat}
    (h : seqParent s idx = some p) :
    p < s.length ∧ opLt (getOp s p) (getOp s idx) = true := by
  unfold seqParent at h
  have hmem := List.mem_of_find?_eq_some h
  have hp := List.find?_some h
  exact ⟨List.mem_range.mp hmem, by simpa using hp⟩

theorem cpFromLeValid (S T : List Operation) (hlen : S.length = T.length)
    (hcore : ∀ u, u < S.length → sameCore (getOp S u) (getOp T u))
    (hz : zeroStarts S) (hprec : respectsPrecedence T) :
    ∀ (fuel idx st : Nat), idx < S.length → st ≤ (getOp T idx).start_time →
      criticalPathFrom S fuel idx st ≤ seqMakespan T := by
  intro fuel
  induction fuel with
  | zero =>
    intro idx st hidx hst
    calc criticalPathFrom S 0 idx st = st := rfl
      _ ≤ (getOp T idx).start_time := hst
      _ ≤ (getOp T idx).start_time + (getOp T idx).fma := Nat.le_add_right _ _
      _ ≤ seqMakespan T := endLeSeqMakespan T idx (hlen ▸ hidx)
  | succ f ih =>
    intro idx st hidx hst
    have hzi : (getOp S idx).start_time = 0 := hz idx hidx
    have hfma : (getOp S idx).fma = (getOp T idx).fma := (hcore idx hidx).2.2.2.2.2
    have hstep : max st (getOp S idx).start_time = st := by
      rw [hzi]; exact Nat.max_eq_left (Nat.zero_le st)
    simp only [criticalPathFrom, hstep]
    cases hpar : seqParent S idx with
    | none =>
      simp only [hpar]
      calc st + (getOp S idx).fma ≤ (getOp T idx).start_time + (getOp T idx).fma := by
            rw [hfma]; exact Nat.add_le_add_right hst _
        _ ≤ seqMakespan T := endLeSeqMakespan T idx (hlen ▸ hidx)
    | some p =>
      simp only [hpar]
      obtain ⟨hplen, hlt⟩ := seqParentMem hpar
      have hltT : opLt (getOp T p) (getOp T idx) = true := by
        rw [opLtCongr (hcore p hplen) (hcore idx hidx)] at hlt
        exact hlt
      have hpr := hprec p idx (hlen ▸ hplen) (hlen ▸ hidx) hltT
      refine ih p (st + (getOp S idx).fma) hplen ?_
      calc st + (getOp S idx).fma ≤ (getOp T idx).start_time + (getOp T idx).fma := by
            rw [hfma]; exact Nat.add_le_add_right hst _
        _ ≤ (getOp T p).start_time := hpr

/-- The critical path of an unscheduled sequence bounds the makespan of every
valid schedule of the same operations from below. -/
theorem cpLowerBound (S T : List Operation) (hlen : S.length = T.length)
    (hcore : ∀ u, u < S.length → sameCore (getOp S u) (getOp T u))
    (hz : zeroStarts S) (hprec : respectsPrecedence T) :
    criticalPath S ≤ seqMakespan T := by
  unfold criticalPath
  refine maxFoldLe _ _ _ _ (Nat.zero_le _) ?_
  intro i hi
  exact cpFromLeValid S T hlen hcore hz hprec S.length i 0 (List.mem_range.mp hi)
    (Nat.zero_le _)

/-! ### Further list lemmas -/

theorem natGetDSetEq (l : List Nat) (t x : Nat) (h : t < l.length) :
    (l.set t x).getD t 0 = x := by
  induction l generalizing t with
  | nil => exact absurd h (by simp)
  | cons a l ih =>
    cases t with
    | zero => rfl
    | succ m =>
      simp only [List.set_cons_succ, List.getD_cons_succ]
      exact ih m (by simpa using h)

theorem natGetDSetNe (l : List Nat) (t u x : Nat) (h : u ≠ t) :
    (l.set t x).getD u 0 = l.getD u 0 := by
  induction l generalizing t u with
  | nil => rfl
  | cons a l ih =>
    cases t with
    | zero =>
      cases u with
      | zero => exact absurd rfl h
      | succ m => rfl
    | succ m =>
      cases u with
      | zero => rfl
      | succ n =>
        simp only [List.set_cons_succ, List.getD_cons_succ]
        exact ih m n (fun hx => h (congrArg Nat.succ hx))

theorem replicateGetD (P t : Nat) : (List.replicate P 0).getD t 0 = 0 := by
  induction P generalizing t with
  | zero => cases t <;> rfl
  | succ n ih =>
    cases t with
    | zero => rfl
    | succ m => exact ih m

theorem sumMapSet (f : Operation → Nat) :
    ∀ (w : List Operation) (idx : Nat) (op : Operation), idx < w.length →
      (((w.set idx op).map f).sum + f (getOp w idx) = (w.map f).sum + f op) := by
  intro w
  induction w with
  | nil => intro idx op h; exact absurd h (by simp)
  | cons a w ih =>
    intro idx op h
    cases idx with
    | zero => simp [getOp]; omega
    | succ m =>
      have := ih m op (by simpa using h)
      simp only [List.set_cons_succ, List.map_cons, List.sum_cons, getOp,
        List.getD_cons_succ]
      unfold getOp at this
      omega

theorem sumMapPointwise (f : Operation → Nat) :
    ∀ (s t : List Operation), s.length = t.length →
      (∀ u, u < s.length → f (getOp s u) = f (getOp t u)) →
      (s.map f).sum = (t.map f).sum := by
  intro s
  induction s with
  | nil =>
    intro t hlen _
    cases t with
    | nil => rfl
    | cons b t => exact absurd hlen (by simp)
  | cons a s ih =>
    intro t hlen hpt
    cases t with
    | nil => exact absurd hlen (by simp)
    | cons b t =>
      have h0 := hpt 0 (by simp)
      have htail : ∀ u, u < s.length → f (getOp s u) = f (getOp t u) := by
        intro u hu
        have := hpt (u + 1) (by simpa using Nat.succ_lt_succ hu)
        simpa [getOp, List.getD_cons_succ] using this
      have := ih t (by simpa using hlen) htail
      simp only [List.map_cons, List.sum_cons]
      unfold getOp at h0
      simp only [List.getD_cons_zero] at h0
      omega

/-- The cost an operation contributes once it is scheduled. -/
def schedCost (op : Operation) : Nat :=
  if op.is_scheduled then op.fma else 0

/-- The total cost of the currently scheduled operations. -/
def scheduledFma (s : List Operation) : Nat :=
  (s.map schedCost).sum

theorem scheduledFmaLeTotal (s : List Operation) :
    scheduledFma s ≤ sequentialMakespan s := by
  unfold scheduledFma sequentialMakespan
  refine List.sum_le_sum ?_
  intro op _
  unfold schedCost
  split <;> simp

theorem scheduledFmaSetTrue (w : List Operation) (idx : Nat) (h : idx < w.length)
    (hns : (getOp w idx).is_scheduled = false) :
    scheduledFma (setSched w idx true) = scheduledFma w + (getOp w idx).fma := by
  have key := sumMapSet schedCost w idx { getOp w idx with is_scheduled := true } h
  have hv1 : schedCost (getOp w idx) = 0 := by
    unfold schedCost
    rw [hns]
    rfl
  have hv2 : schedCost { getOp w idx with is_scheduled := true } = (getOp w idx).fma := by
    unfold schedCost
    rfl
  rw [hv1, hv2] at key
  unfold scheduledFma setSched
  omega

theorem sequentialMakespanCongr (s t : List Operation) (hlen : s.length = t.length)
    (hf : ∀ u, u < s.length → (getOp s u).fma = (getOp t u).fma) :
    sequentialMakespan s = sequentialMakespan t :=
  sumMapPointwise Operation.fma s t hlen hf

theorem scheduledFmaCongr (s t : List Operation) (hlen : s.length = t.length)
    (hf : ∀ u, u < s.length →
      (getOp s u).fma = (getOp t u).fma ∧
      (getOp s u).is_scheduled = (getOp t u).is_scheduled) :
    scheduledFma s = scheduledFma t := by
  refine sumMapPointwise _ s t hlen ?_
  intro u hu
  unfold schedCost
  rw [(hf u hu).1, (hf u hu).2]

theorem isSchedulableSpec {s : List Operation} {idx : Nat}
    (h : isSchedulable s idx = true) :
    ∀ v, v < s.length → opLt (getOp s idx) (getOp s v) = true →
      (getOp s v).is_scheduled = true := by
  intro v hv hp
  unfold isSchedulable at h
  have := (List.all_eq_true.mp h) v (List.mem_range.mpr hv)
  simp only [Bool.or_eq_true, Bool.not_eq_true'] at this
  rcases this with h1 | h2
  · rw [hp] at h1; exact absurd h1 (by simp)
  · exact h2

theorem disjointOfLe {a b : Operation}
    (h : a.start_time + a.fma ≤ b.start_time ∨ b.start_time + b.fma ≤ a.start_time) :
    ∀ x, ¬(a.start_time ≤ x ∧ x < a.start_time + a.fma ∧
           b.start_time ≤ x ∧ x < b.start_time + b.fma) := by
  intro x hx
  omega

/-- Pointwise description of `resetScheduled`. -/
theorem resetScheduledGetOp (s : List Operation) (n : Nat) :
    getOp (resetScheduled s) n = { getOp s n with is_scheduled := false } := by
  unfold resetScheduled
  by_cases h : n < s.length
  · unfold getOp
    rw [List.getD_eq_getElem _ _ (by simpa using h), List.getD_eq_getElem _ _ h]
    simp
  · unfold getOp
    rw [List.getD_eq_default _ _ (by simpa using Nat.le_of_not_lt h),
      List.getD_eq_default _ _ (Nat.le_of_not_lt h)]

theorem resetScheduledLength (s : List Operation) :
    (resetScheduled s).length = s.length := by
  unfold resetScheduled
  exact List.length_map s _

/-! ### The branch-and-bound scheduler invariant -/

/-- The partial-schedule invariant of the branch-and-bound DFS: all scheduled
operations had all their producers scheduled and start after them; every
scheduled operation sits on a known thread whose load covers its end time;
scheduled operations on one thread are interval-disjoint; loads are below
the running makespan; and the makespan is covered by the scheduled work. -/
def bnbInv (P : Nat) (s : BnbState) : Prop :=
  s.loads.length = P ∧
  (∀ u, u < s.working.length → (getOp s.working u).is_scheduled = true →
    ((∀ v, v < s.working.length →
        opLt (getOp s.working u) (getOp s.working v) = true →
        (getOp s.working v).is_scheduled = true ∧
        (getOp s.working v).start_time + (getOp s.working v).fma ≤
          (getOp s.working u).start_time) ∧
      (getOp s.working u).thread < P ∧
      (getOp s.working u).start_time + (getOp s.working u).fma ≤
        s.loads.getD (getOp s.working u).thread 0)) ∧
  (∀ u v, u < s.working.length → v < s.working.length → u ≠ v →
    (getOp s.working u).is_scheduled = true →
    (getOp s.working v).is_scheduled = true →
    (getOp s.working u).thread = (getOp s.working v).thread →
    ((getOp s.working u).start_time + (getOp s.working u).fma ≤
        (getOp s.working v).start_time ∨
      (getOp s.working v).start_time + (getOp s.working v).fma ≤
        (getOp s.working u).start_time)) ∧
  (∀ t, t < P → s.loads.getD t 0 ≤ s.mkspan) ∧
  s.mkspan ≤ scheduledFma s.working

/-- Precondition of a frame: the invariant plus agreement of the working
copy with the (reset) base sequence. -/
def bnbPre (P : Nat) (base : List Operation) (s : BnbState) : Prop :=
  bnbInv P s ∧
  s.working.length = base.length ∧
  (∀ u, u < s.working.length → sameCore (getOp s.working u) (getOp base u))

/-- What the search guarantees about the caller-visible results: `out` is
either untouched or holds a valid schedule of the base operations, and the
best makespan, once improved below the initial upper bound, is sandwiched
between the critical path and the sequential makespan of the base. -/
def bnbOutOk (orig base : List Operation) (ub0 : Nat) (s : BnbState) : Prop :=
  (s.out = orig ∨ (validSchedule s.out ∧ coreEq s.out base)) ∧
  s.best ≤ ub0 ∧
  (zeroStarts base → s.best < ub0 → criticalPath base ≤ s.best) ∧
  (s.best < ub0 → s.best ≤ sequentialMakespan base)

/-- Exact backtracking: `s2` agrees with `s` on loads, idling time and
makespan, and on every operation field except possibly the `thread` of
operations that are unscheduled (or equal to the currently explored `ex`). -/
def bnbRestored (ex : Nat) (s s2 : BnbState) : Prop :=
  s2.loads = s.loads ∧ s2.idling = s.idling ∧ s2.mkspan = s.mkspan ∧
  s2.working.length = s.working.length ∧
  (∀ n, n < s.working.length →
    getOp s2.working n = { getOp s.working n with thread := (getOp s2.working n).thread } ∧
    ((getOp s.working n).is_scheduled = true → n ≠ ex →
      (getOp s2.working n).thread = (getOp s.working n).thread))

theorem bnbRestoredRefl (ex : Nat) (s : BnbState) : bnbRestored ex s s :=
  ⟨rfl, rfl, rfl, rfl, fun _ _ => ⟨rfl, fun _ _ => rfl⟩⟩

theorem bnbRestoredTrans {ex : Nat} {s s2 s3 : BnbState}
    (h1 : bnbRestored ex s s2) (h2 : bnbRestored ex s2 s3) :
    bnbRestored ex s s3 := by
  obtain ⟨l1, i1, m1, n1, p1⟩ := h1
  obtain ⟨l2, i2, m2, n2, p2⟩ := h2
  refine ⟨l2.trans l1, i2.trans i1, m2.trans m1, n2.trans n1, ?_⟩
  intro n hn
  have q1 := p1 n hn
  have q2 := p2 n (n1 ▸ hn)
  constructor
  · rw [q2.1, q1.1]
  · intro hs hne
    have hs2 : (getOp s2.working n).is_scheduled = true := by rw [q1.1]; exact hs
    rw [q2.2 hs2 hne, q1.2 hs hne]

/-- Fields other than `thread` are preserved by `bnbRestored`. -/
theorem bnbRestoredFields {ex : Nat} {s s2 : BnbState}
    (h : bnbRestored ex s s2) (n : Nat) (hn : n < s.working.length) :
    sameCore (getOp s2.working n) (getOp s.working n) ∧
    (getOp s2.working n).start_time = (getOp s.working n).start_time ∧
    (getOp s2.working n).is_scheduled = (getOp s.working n).is_scheduled := by
  have := (h.2.2.2.2 n hn).1
  rw [this]
  exact ⟨⟨rfl, rfl, rfl, rfl, rfl, rfl⟩, rfl, rfl⟩

/-! ### Thread-loop precondition -/

/-- Entry condition of the thread loop for operation `idx` with earliest
start `start`: the invariant holds for all scheduled operations other than
`idx` (which is flagged but not yet placed), `idx`'s producers are scheduled
and end before `start`, no other scheduled operation consumes `idx`, `start`
is below the makespan, and the makespan leaves room for `idx`'s cost inside
the scheduled work. -/
def tlPre (P : Nat) (base : List Operation) (idx start : Nat) (s : BnbState) : Prop :=
  s.loads.length = P ∧
  s.working.length = base.length ∧
  (∀ u, u < s.working.length → sameCore (getOp s.working u) (getOp base u)) ∧
  idx < s.working.length ∧
  (getOp s.working idx).is_scheduled = true ∧
  (∀ u, u < s.working.length → u ≠ idx → (getOp s.working u).is_scheduled = true →
    ((∀ v, v < s.working.length →
        opLt (getOp s.working u) (getOp s.working v) = true →
        (getOp s.working v).is_scheduled = true ∧
        (v ≠ idx → (getOp s.working v).start_time + (getOp s.working v).fma ≤
          (getOp s.working u).start_time)) ∧
      (getOp s.working u).thread < P ∧
      (getOp s.working u).start_time + (getOp s.working u).fma ≤
        s.loads.getD (getOp s.working u).thread 0)) ∧
  (∀ u v, u < s.working.length → v < s.working.length → u ≠ v → u ≠ idx → v ≠ idx →
    (getOp s.working u).is_scheduled = true →
    (getOp s.working v).is_scheduled = true →
    (getOp s.working u).thread = (getOp s.working v).thread →
    ((getOp s.working u).start_time + (getOp s.working u).fma ≤
        (getOp s.working v).start_time ∨
      (getOp s.working v).start_time + (getOp s.working v).fma ≤
        (getOp s.working u).start_time)) ∧
  (∀ t, t < P → s.loads.getD t 0 ≤ s.mkspan) ∧
  s.mkspan + (getOp s.working idx).fma ≤ scheduledFma s.working ∧
  (∀ v, v < s.working.length →
    opLt (getOp s.working idx) (getOp s.working v) = true →
    v ≠ idx ∧ (getOp s.working v).is_scheduled = true ∧
    (getOp s.working v).start_time + (getOp s.working v).fma ≤ start) ∧
  (∀ u, u < s.working.length → u ≠ idx → (getOp s.working u).is_scheduled = true →
    opLt (getOp s.working u) (getOp s.working idx) = false) ∧
  start ≤ s.mkspan

/-! ### Stability of the preconditions under exact backtracking -/

theorem sameCoreSymm {a b : Operation} (h : sameCore a b) : sameCore b a :=
  ⟨h.1.symm, h.2.1.symm, h.2.2.1.symm, h.2.2.2.1.symm, h.2.2.2.2.1.symm,
    h.2.2.2.2.2.symm⟩

theorem sameCoreTrans {a b c : Operation} (h1 : sameCore a b) (h2 : sameCore b c) :
    sameCore a c :=
  ⟨h1.1.trans h2.1, h1.2.1.trans h2.2.1, h1.2.2.1.trans h2.2.2.1,
    h1.2.2.2.1.trans h2.2.2.2.1, h1.2.2.2.2.1.trans h2.2.2.2.2.1,
    h1.2.2.2.2.2.trans h2.2.2.2.2.2⟩

theorem sameCoreThreadUpd (a : Operation) (θ : Nat) :
    sameCore { a with thread := θ } a :=
  ⟨rfl, rfl, rfl, rfl, rfl, rfl⟩

theorem bnbRestoredSched {ex : Nat} {s s2 : BnbState} (h : bnbRestored ex s s2)
    {n : Nat} (hn : n < s.working.length) :
    (getOp s2.working n).is_scheduled = (getOp s.working n).is_scheduled :=
  (bnbRestoredFields h n hn).2.2

theorem bnbRestoredStart {ex : Nat} {s s2 : BnbState} (h : bnbRestored ex s s2)
    {n : Nat} (hn : n < s.working.length) :
    (getOp s2.working n).start_time = (getOp s.working n).start_time :=
  (bnbRestoredFields h n hn).2.1

theorem bnbRestoredFma {ex : Nat} {s s2 : BnbState} (h : bnbRestored ex s s2)
    {n : Nat} (hn : n < s.working.length) :
    (getOp s2.working n).fma = (getOp s.working n).fma :=
  (bnbRestoredFields h n hn).1.2.2.2.2.2

theorem bnbRestoredOpLt {ex : Nat} {s s2 : BnbState} (h : bnbRestored ex s s2)
    {u v : Nat} (hu : u < s.working.length) (hv : v < s.working.length) :
    opLt (getOp s2.working u) (getOp s2.working v) =
      opLt (getOp s.working u) (getOp s.working v) :=
  opLtCongr (bnbRestoredFields h u hu).1 (bnbRestoredFields h v hv).1

theorem bnbRestoredSchedFma {ex : Nat} {s s2 : BnbState} (h : bnbRestored ex s s2) :
    scheduledFma s2.working = scheduledFma s.working := by
  refine scheduledFmaCongr _ _ h.2.2.2.1 ?_
  intro u hu
  rw [h.2.2.2.1] at hu
  exact ⟨bnbRestoredFma h hu, bnbRestoredSched h hu⟩

theorem tlPreStable {P : Nat} {base : List Operation} {idx start : Nat}
    {s s2 : BnbState} (hrel : bnbRestored idx s s2)
    (hpre : tlPre P base idx start s) : tlPre P base idx start s2 := by
  obtain ⟨hL, hlen, hcore, hidx, hflag, hA, hB, hC, hE, hprod, hnc, hst⟩ := hpre
  obtain ⟨hloads, hidl, hmk, hwlen, hpt⟩ := hrel
  have hlen2 : s2.working.length = s.working.length := hwlen
  refine ⟨by rw [hloads]; exact hL, by rw [hlen2]; exact hlen, ?_, by rw [hlen2]; exact hidx,
    ?_, ?_, ?_, ?_, ?_, ?_, ?_, ?_⟩
  · intro u hu
    rw [hlen2] at hu
    exact sameCoreTrans (bnbRestoredFields ⟨hloads, hidl, hmk, hwlen, hpt⟩ u hu).1
      (hcore u hu)
  · rw [bnbRestoredSched ⟨hloads, hidl, hmk, hwlen, hpt⟩ hidx]
    exact hflag
  · intro u hu hne hsch
    rw [hlen2] at hu
    have hrel2 : bnbRestored idx s s2 := ⟨hloads, hidl, hmk, hwlen, hpt⟩
    rw [bnbRestoredSched hrel2 hu] at hsch
    obtain ⟨ha1, ha2, ha3⟩ := hA u hu hne hsch
    refine ⟨?_, ?_, ?_⟩
    · intro v hv hp
      rw [hlen2] at hv
      rw [bnbRestoredOpLt hrel2 hu hv] at hp
      obtain ⟨hb1, hb2⟩ := ha1 v hv hp
      refine ⟨by rw [bnbRestoredSched hrel2 hv]; exact hb1, ?_⟩
      intro hvne
      rw [bnbRestoredStart hrel2 hv, bnbRestoredFma hrel2 hv,
        bnbRestoredStart hrel2 hu]
      exact hb2 hvne
    · rw [(hpt u hu).2 hsch hne]
      exact ha2
    · rw [bnbRestoredStart hrel2 hu, bnbRestoredFma hrel2 hu,
        (hpt u hu).2 hsch hne, hloads]
      exact ha3
  · intro u v hu hv huv hune hvne hsu hsv hth
    rw [hlen2] at hu hv
    have hrel2 : bnbRestored idx s s2 := ⟨hloads, hidl, hmk, hwlen, hpt⟩
    rw [bnbRestoredSched hrel2 hu] at hsu
    rw [bnbRestoredSched hrel2 hv] at hsv
    rw [(hpt u hu).2 hsu hune, (hpt v hv).2 hsv hvne] at hth
    have := hB u v hu hv huv hune hvne hsu hsv hth
    rw [bnbRestoredStart hrel2 hu, bnbRestoredFma hrel2 hu,
      bnbRestoredStart hrel2 hv, bnbRestoredFma hrel2 hv]
    exact this
  · intro t ht
    rw [hloads, hmk]
    exact hC t ht
  · have hrel2 : bnbRestored idx s s2 := ⟨hloads, hidl, hmk, hwlen, hpt⟩
    rw [hmk, bnbRestoredFma hrel2 hidx, bnbRestoredSchedFma hrel2]
    exact hE
  · intro v hv hp
    rw [hlen2] at hv
    have hrel2 : bnbRestored idx s s2 := ⟨hloads, hidl, hmk, hwlen, hpt⟩
    rw [bnbRestoredOpLt hrel2 hidx hv] at hp
    obtain ⟨hq1, hq2, hq3⟩ := hprod v hv hp
    refine ⟨hq1, by rw [bnbRestoredSched hrel2 hv]; exact hq2, ?_⟩
    rw [bnbRestoredStart hrel2 hv, bnbRestoredFma hrel2 hv]
    exact hq3
  · intro u hu hne hsch
    rw [hlen2] at hu
    have hrel2 : bnbRestored idx s s2 := ⟨hloads, hidl, hmk, hwlen, hpt⟩
    rw [bnbRestoredSched hrel2 hu] at hsch
    rw [bnbRestoredOpLt hrel2 hu hidx]
    exact hnc u hu hne hsch
  · rw [hmk]
    exact hst

theorem bnbPreStable {P : Nat} {base : List Operation} {s s2 : BnbState}
    (hrel : bnbRestored s.working.length s s2)
    (hpre : bnbPre P base s) : bnbPre P base s2 := by
  obtain ⟨⟨hL, hA, hB, hC, hE⟩, hlen, hcore⟩ := hpre
  obtain ⟨hloads, hidl, hmk, hwlen, hpt⟩ := hrel
  have hrel2 : bnbRestored s.working.length s s2 := ⟨hloads, hidl, hmk, hwlen, hpt⟩
  refine ⟨⟨by rw [hloads]; exact hL, ?_, ?_, ?_, ?_⟩,
    by rw [hwlen]; exact hlen, ?_⟩
  · intro u hu hsch
    rw [hwlen] at hu
    rw [bnbRestoredSched hrel2 hu] at hsch
    obtain ⟨ha1, ha2, ha3⟩ := hA u hu hsch
    have hune : u ≠ s.working.length := Nat.ne_of_lt hu
    refine ⟨?_, ?_, ?_⟩
    · intro v hv hp
      rw [hwlen] at hv
      rw [bnbRestoredOpLt hrel2 hu hv] at hp
      obtain ⟨hb1, hb2⟩ := ha1 v hv hp
      refine ⟨by rw [bnbRestoredSched hrel2 hv]; exact hb1, ?_⟩
      rw [bnbRestoredStart hrel2 hv, bnbRestoredFma hrel2 hv,
        bnbRestoredStart hrel2 hu]
      exact hb2
    · rw [(hpt u hu).2 hsch hune]
      exact ha2
    · rw [bnbRestoredStart hrel2 hu, bnbRestoredFma hrel2 hu,
        (hpt u hu).2 hsch hune, hloads]
      exact ha3
  · intro u v hu hv huv hsu hsv hth
    rw [hwlen] at hu hv
    rw [bnbRestoredSched hrel2 hu] at hsu
    rw [bnbRestoredSched hrel2 hv] at hsv
    rw [(hpt u hu).2 hsu (Nat.ne_of_lt hu), (hpt v hv).2 hsv (Nat.ne_of_lt hv)] at hth
    have := hB u v hu hv huv hsu hsv hth
    rw [bnbRestoredStart hrel2 hu, bnbRestoredFma hrel2 hu,
      bnbRestoredStart hrel2 hv, bnbRestoredFma hrel2 hv]
    exact this
  · intro t ht
    rw [hloads, hmk]
    exact hC t ht
  · rw [hmk, bnbRestoredSchedFma hrel2]
    exact hE
  · intro u hu
    rw [hwlen] at hu
    exact sameCoreTrans (bnbRestoredFields hrel2 u hu).1 (hcore u hu)

/-! ### Pointwise behaviour of the field updaters -/

theorem setStartLength (s : List Operation) (idx v : Nat) :
    (setStart s idx v).length = s.length := by
  unfold setStart; exact List.length_set s _ _

theorem setThreadLength (s : List Operation) (idx t : Nat) :
    (setThread s idx t).length = s.length := by
  unfold setThread; exact List.length_set s _ _

theorem setSchedLength (s : List Operation) (idx : Nat) (b : Bool) :
    (setSched s idx b).length = s.length := by
  unfold setSched; exact List.length_set s _ _

theorem getOpSetStartEq (s : List Operation) (idx v : Nat) (h : idx < s.length) :
    getOp (setStart s idx v) idx = { getOp s idx with start_time := v } := by
  unfold setStart; exact getOpSetEq s idx _ h

theorem getOpSetStartNe (s : List Operation) (idx v n : Nat) (h : n ≠ idx) :
    getOp (setStart s idx v) n = getOp s n := by
  unfold setStart; exact getOpSetNe s idx n _ h

theorem getOpSetThreadEq (s : List Operation) (idx t : Nat) (h : idx < s.length) :
    getOp (setThread s idx t) idx = { getOp s idx with thread := t } := by
  unfold setThread; exact getOpSetEq s idx _ h

theorem getOpSetThreadNe (s : List Operation) (idx t n : Nat) (h : n ≠ idx) :
    getOp (setThread s idx t) n = getOp s n := by
  unfold setThread; exact getOpSetNe s idx n _ h

theorem getOpSetSchedEq (s : List Operation) (idx : Nat) (b : Bool) (h : idx < s.length) :
    getOp (setSched s idx b) idx = { getOp s idx with is_scheduled := b } := by
  unfold setSched; exact getOpSetEq s idx _ h

theorem getOpSetSchedNe (s : List Operation) (idx : Nat) (b : Bool) (n : Nat) (h : n ≠ idx) :
    getOp (setSched s idx b) n = getOp s n := by
  unfold setSched; exact getOpSetNe s idx n _ h

theorem sameCoreSchedUpd (a : Operation) (b : Bool) :
    sameCore { a with is_scheduled := b } a :=
  ⟨rfl, rfl, rfl, rfl, rfl, rfl⟩

theorem sameCoreStartUpd (a : Operation) (v : Nat) :
    sameCore { a with start_time := v } a :=
  ⟨rfl, rfl, rfl, rfl, rfl, rfl⟩

theorem sameCoreStartThreadUpd (a : Operation) (v t : Nat) :
    sameCore { a with start_time := v, thread := t } a :=
  ⟨rfl, rfl, rfl, rfl, rfl, rfl⟩

/-! ### Entering the thread loop establishes its precondition -/

theorem tlPreOfPre {P : Nat} {base : List Operation} {s : BnbState} {idx : Nat}
    (hpre : bnbPre P base s) (hidx : idx < s.working.length)
    (hns : (getOp s.working idx).is_scheduled = false)
    (hschable : isSchedulable s.working idx = true) :
    tlPre P base idx (earliestStart (setSched s.working idx true) idx)
      { s with working := setSched s.working idx true } := by
  obtain ⟨⟨hL, hA, hB, hC, hE⟩, hlen, hcore⟩ := hpre
  have f3 : (setSched s.working idx true).length = s.working.length :=
    setSchedLength s.working idx true
  have f1 : getOp (setSched s.working idx true) idx =
      { getOp s.working idx with is_scheduled := true } :=
    getOpSetSchedEq s.working idx true hidx
  have f2 : ∀ n, n ≠ idx → getOp (setSched s.working idx true) n = getOp s.working n :=
    fun n hn => getOpSetSchedNe s.working idx true n hn
  have fcore : ∀ n, n < s.working.length →
      sameCore (getOp (setSched s.working idx true) n) (getOp s.working n) := by
    intro n _
    by_cases hn : n = idx
    · subst hn; rw [f1]; exact sameCoreSchedUpd _ _
    · rw [f2 n hn]; exact sameCoreRefl _
  have fLt : ∀ u v, u < s.working.length → v < s.working.length →
      opLt (getOp (setSched s.working idx true) u) (getOp (setSched s.working idx true) v) =
        opLt (getOp s.working u) (getOp s.working v) := by
    intro u v hu hv
    exact opLtCongr (fcore u hu) (fcore v hv)
  have fsched : ∀ n, n < s.working.length → n ≠ idx →
      (getOp (setSched s.working idx true) n).is_scheduled =
        (getOp s.working n).is_scheduled := by
    intro n _ hn; rw [f2 n hn]
  have fstart : ∀ n, n ≠ idx →
      (getOp (setSched s.working idx true) n).start_time =
        (getOp s.working n).start_time := by
    intro n hn; rw [f2 n hn]
  have ffma : ∀ n, n < s.working.length →
      (getOp (setSched s.working idx true) n).fma = (getOp s.working n).fma := by
    intro n hn
    by_cases h : n = idx
    · subst h; rw [f1]
    · rw [f2 n h]
  -- producers of idx, on the original working list
  have hprodW : ∀ v, v < s.working.length →
      opLt (getOp s.working idx) (getOp s.working v) = true →
      v ≠ idx ∧ (getOp s.working v).is_scheduled = true := by
    intro v hv hp
    have hsv := isSchedulableSpec hschable v hv hp
    refine ⟨?_, hsv⟩
    intro hveq
    subst hveq
    rw [hns] at hsv
    exact absurd hsv (by simp)
  refine ⟨hL, by rw [f3]; exact hlen, ?_, by rw [f3]; exact hidx, ?_, ?_, ?_, hC, ?_, ?_, ?_, ?_⟩
  · intro u hu
    rw [f3] at hu
    exact sameCoreTrans (fcore u hu) (hcore u hu)
  · rw [f1]
  · -- invariant (A) away from idx
    intro u hu hne hsch
    rw [f3] at hu
    rw [fsched u hu hne] at hsch
    obtain ⟨ha1, ha2, ha3⟩ := hA u hu hsch
    refine ⟨?_, ?_, ?_⟩
    · intro v hv hp
      rw [f3] at hv
      rw [fLt u v hu hv] at hp
      obtain ⟨hb1, hb2⟩ := ha1 v hv hp
      constructor
      · by_cases hveq : v = idx
        · subst hveq; rw [f1]
        · rw [f2 v hveq]; exact hb1
      · intro hvne
        rw [fstart v hvne, ffma v hv, fstart u hne]
        exact hb2
    · rw [f2 u hne]; exact ha2
    · rw [f2 u hne]; exact ha3
  · -- invariant (B) away from idx
    intro u v hu hv huv hune hvne hsu hsv hth
    rw [f3] at hu hv
    rw [fsched u hu hune] at hsu
    rw [fsched v hv hvne] at hsv
    rw [f2 u hune, f2 v hvne] at hth
    have := hB u v hu hv huv hsu hsv hth
    rw [f2 u hune, f2 v hvne]
    exact this
  · -- makespan leaves room for idx's fma
    show s.mkspan + (getOp (setSched s.working idx true) idx).fma ≤
      scheduledFma (setSched s.working idx true)
    rw [ffma idx hidx]
    have := scheduledFmaSetTrue s.working idx hidx hns
    omega
  · -- producers of idx end before its earliest start
    intro v hv hp
    rw [f3] at hv
    rw [fLt idx v hidx hv] at hp
    obtain ⟨hvne, hsv⟩ := hprodW v hv hp
    refine ⟨hvne, by rw [fsched v hv hvne]; exact hsv, ?_⟩
    refine mopGeElem (setSched s.working idx true) idx (List.range (setSched s.working idx true).length)
      0 v (List.mem_range.mpr (by rw [f3]; exact hv)) ?_
    rw [fLt idx v hidx hv]
    exact hp
  · -- no scheduled operation consumes idx
    intro u hu hne hsch
    rw [f3] at hu
    rw [fsched u hu hne] at hsch
    rw [fLt u idx hu hidx]
    rw [Bool.eq_false_iff]
    intro hcon
    have := (hA u hu hsch).1 idx hidx hcon
    rw [hns] at this
    exact absurd this.1 (by simp)
  · -- the earliest start is below the running makespan
    refine mopLe (setSched s.working idx true) idx _ 0 _ (Nat.zero_le _) ?_
    intro v hv hp
    have hv2 : v < s.working.length := by
      rw [← f3]; exact List.mem_range.mp hv
    rw [fLt idx v hidx hv2] at hp
    obtain ⟨hvne, hsv⟩ := hprodW v hv2 hp
    obtain ⟨_, hth, hload⟩ := hA v hv2 hsv
    rw [fstart v hvne, ffma v hv2]
    calc (getOp s.working v).start_time + (getOp s.working v).fma ≤
          s.loads.getD (getOp s.working v).thread 0 := hload
      _ ≤ s.mkspan := hC _ hth

/-! ### Placing the operation on a thread re-establishes the full invariant -/

theorem placementPre {P : Nat} {base : List Operation} {idx start t : Nat}
    {s : BnbState} (hpre : tlPre P base idx start s) (htP : t < P) :
    bnbPre P base
      { working := setThread (setStart s.working idx (max (s.loads.getD t 0) start)) idx t
        loads := s.loads.set t (max (s.loads.getD t 0) start + (getOp s.working idx).fma)
        idling := s.idling + (max (s.loads.getD t 0) start - s.loads.getD t 0)
        mkspan := max s.mkspan (max (s.loads.getD t 0) start + (getOp s.working idx).fma)
        best := s.best, out := s.out, clock := s.clock } := by
  obtain ⟨hL, hlen, hcore, hidx, hflag, hA, hB, hC, hE, hprod, hnc, hst⟩ := hpre
  set load := s.loads.getD t 0 with hload
  set startTime := max load start with hstartTime
  set w := s.working with hw
  have hlen1 : (setStart w idx startTime).length = w.length := setStartLength w idx startTime
  have hlenW : (setThread (setStart w idx startTime) idx t).length = w.length := by
    rw [setThreadLength, hlen1]
  have g1 : getOp (setThread (setStart w idx startTime) idx t) idx =
      { { getOp w idx with start_time := startTime } with thread := t } := by
    rw [getOpSetThreadEq _ idx t (by rw [hlen1]; exact hidx),
      getOpSetStartEq w idx startTime hidx]
  have g2 : ∀ n, n ≠ idx →
      getOp (setThread (setStart w idx startTime) idx t) n = getOp w n := by
    intro n hn
    rw [getOpSetThreadNe _ idx t n hn, getOpSetStartNe w idx startTime n hn]
  have gcore : ∀ n, n < w.length →
      sameCore (getOp (setThread (setStart w idx startTime) idx t) n) (getOp w n) := by
    intro n _
    by_cases hn : n = idx
    · subst hn; rw [g1]; exact ⟨rfl, rfl, rfl, rfl, rfl, rfl⟩
    · rw [g2 n hn]; exact sameCoreRefl _
  have gLt : ∀ u v, u < w.length → v < w.length →
      opLt (getOp (setThread (setStart w idx startTime) idx t) u)
        (getOp (setThread (setStart w idx startTime) idx t) v) =
      opLt (getOp w u) (getOp w v) := by
    intro u v hu hv
    exact opLtCongr (gcore u hu) (gcore v hv)
  have hloadmk : load ≤ s.mkspan := hC t htP
  have hstmk : startTime ≤ s.mkspan := by
    rw [hstartTime]; exact Nat.max_le.mpr ⟨hloadmk, hst⟩
  have hLload : s.loads.length = P := hL
  refine ⟨⟨?_, ?_, ?_, ?_, ?_⟩, ?_, ?_⟩
  · simpa [List.length_set] using hLload
  · -- (A)
    intro u hu hsch
    rw [hlenW] at hu
    by_cases hue : u = idx
    · subst hue
      refine ⟨?_, ?_, ?_⟩
      · intro v hv hp
        rw [hlenW] at hv
        rw [gLt u v hu hv] at hp
        obtain ⟨hvne, hsv, hend⟩ := hprod v hv hp
        constructor
        · rw [g2 v hvne]; exact hsv
        · rw [g2 v hvne, g1]
          show (getOp w v).start_time + (getOp w v).fma ≤ startTime
          calc (getOp w v).start_time + (getOp w v).fma ≤ start := hend
            _ ≤ startTime := Nat.le_max_right load start
      · rw [g1]; exact htP
      · rw [g1]
        show startTime + (getOp w u).fma ≤
          (s.loads.set t (startTime + (getOp w u).fma)).getD t 0
        rw [natGetDSetEq s.loads t _ (by rw [hLload]; exact htP)]
    · have hschu : (getOp w u).is_scheduled = true := by
        rw [g2 u hue] at hsch; exact hsch
      obtain ⟨ha1, ha2, ha3⟩ := hA u hu hue hschu
      refine ⟨?_, ?_, ?_⟩
      · intro v hv hp
        rw [hlenW] at hv
        rw [gLt u v hu hv] at hp
        have hvne : v ≠ idx := by
          intro hveq
          subst hveq
          rw [hnc u hu hue hschu] at hp
          exact absurd hp (by simp)
        obtain ⟨hb1, hb2⟩ := ha1 v hv hp
        rw [g2 v hvne, g2 u hue]
        exact ⟨hb1, hb2 hvne⟩
      · rw [g2 u hue]; exact ha2
      · rw [g2 u hue]
        by_cases hth : (getOp w u).thread = t
        · rw [hth, natGetDSetEq s.loads t _ (by rw [hLload]; exact htP)]
          rw [hth] at ha3
          calc (getOp w u).start_time + (getOp w u).fma ≤ load := ha3
            _ ≤ startTime := Nat.le_max_left load start
            _ ≤ startTime + (getOp w idx).fma := Nat.le_add_right _ _
        · rw [natGetDSetNe s.loads t _ _ hth]
          exact ha3
  · -- (B)
    intro u v hu hv huv hsu hsv hth
    rw [hlenW] at hu hv
    by_cases hue : u = idx
    · subst hue
      have hvne : v ≠ u := fun hx => huv hx.symm
      have hsvw : (getOp w v).is_scheduled = true := by
        rw [g2 v hvne] at hsv; exact hsv
      have hthv : (getOp w v).thread = t := by
        rw [g1, g2 v hvne] at hth
        exact hth.symm
      obtain ⟨_, _, ha3⟩ := hA v hv hvne hsvw
      rw [hthv] at ha3
      refine Or.inr ?_
      rw [g2 v hvne, g1]
      show (getOp w v).start_time + (getOp w v).fma ≤ startTime
      calc (getOp w v).start_time + (getOp w v).fma ≤ load := ha3
        _ ≤ startTime := Nat.le_max_left load start
    · by_cases hve : v = idx
      · subst hve
        have hsuw : (getOp w u).is_scheduled = true := by
          rw [g2 u hue] at hsu; exact hsu
        have hthu : (getOp w u).thread = t := by
          rw [g1, g2 u hue] at hth
          exact hth
        obtain ⟨_, _, ha3⟩ := hA u hu hue hsuw
        rw [hthu] at ha3
        refine Or.inl ?_
        rw [g2 u hue, g1]
        show (getOp w u).start_time + (getOp w u).fma ≤ startTime
        calc (getOp w u).start_time + (getOp w u).fma ≤ load := ha3
          _ ≤ startTime := Nat.le_max_left load start
      · have hsuw : (getOp w u).is_scheduled = true := by
          rw [g2 u hue] at hsu; exact hsu
        have hsvw : (getOp w v).is_scheduled = true := by
          rw [g2 v hve] at hsv; exact hsv
        have hthw : (getOp w u).thread = (getOp w v).thread := by
          rw [g2 u hue, g2 v hve] at hth; exact hth
        have := hB u v hu hv huv hue hve hsuw hsvw hthw
        rw [g2 u hue, g2 v hve]
        exact this
  · -- (C)
    intro t2 ht2
    by_cases hte : t2 = t
    · subst hte
      rw [natGetDSetEq s.loads t2 _ (by rw [hLload]; exact htP)]
      exact Nat.le_max_right _ _
    · rw [natGetDSetNe s.loads t t2 _ hte]
      exact Nat.le_trans (hC t2 ht2) (Nat.le_max_left _ _)
  · -- (E)
    have hSF : scheduledFma (setThread (setStart w idx startTime) idx t) =
        scheduledFma w := by
      refine scheduledFmaCongr _ _ hlenW ?_
      intro n hn
      rw [hlenW] at hn
      by_cases hne : n = idx
      · subst hne; rw [g1]; exact ⟨rfl, rfl⟩
      · rw [g2 n hne]; exact ⟨rfl, rfl⟩
    show max s.mkspan (startTime + (getOp w idx).fma) ≤
      scheduledFma (setThread (setStart w idx startTime) idx t)
    rw [hSF]
    refine Nat.max_le.mpr ⟨?_, ?_⟩
    · omega
    · calc startTime + (getOp w idx).fma ≤ s.mkspan + (getOp w idx).fma :=
          Nat.add_le_add_right hstmk _
        _ ≤ scheduledFma w := hE
  · show (setThread (setStart w idx startTime) idx t).length = base.length
    rw [hlenW]; exact hlen
  · intro u hu
    rw [hlenW] at hu
    exact sameCoreTrans (gcore u hu) (hcore u hu)

/-! ### Facts available at a fully scheduled leaf -/

theorem listExtGetOp (l l2 : List Operation) (hlen : l2.length = l.length)
    (h : ∀ n, n < l.length → getOp l2 n = getOp l n) : l2 = l := by
  apply List.ext_getElem hlen
  intro n h1 h2
  have := h n h2
  unfold getOp at this
  rw [List.getD_eq_getElem l2 _ h1, List.getD_eq_getElem l _ h2] at this
  exact this

theorem restoredAllSchedEq {s s2 : BnbState}
    (hrest : bnbRestored s.working.length s s2)
    (hall : ∀ n, n < s.working.length → (getOp s.working n).is_scheduled = true) :
    s2.working = s.working := by
  refine listExtGetOp s.working s2.working hrest.2.2.2.1 ?_
  intro n hn
  obtain ⟨heq, hpr⟩ := hrest.2.2.2.2 n hn
  rw [heq, hpr (hall n hn) (Nat.ne_of_lt hn)]

theorem leafFacts {P : Nat} {base : List Operation} {s : BnbState}
    (hpre : bnbPre P base s)
    (hall : ∀ n, n < s.working.length → (getOp s.working n).is_scheduled = true) :
    validSchedule s.working ∧ coreEq s.working base ∧
    (zeroStarts base → criticalPath base ≤ s.mkspan) ∧
    s.mkspan ≤ sequentialMakespan base := by
  obtain ⟨⟨hL, hA, hB, hC, hE⟩, hlen, hcore⟩ := hpre
  have hprec : respectsPrecedence s.working := by
    intro u v hu hv hp
    exact ((hA u hu (hall u hu)).1 v hv hp).2
  have hval : validSchedule s.working := by
    refine ⟨hall, hprec, ?_⟩
    intro u v hu hv huv hth x
    exact disjointOfLe (hB u v hu hv huv (hall u hu) (hall v hv) hth) x
  have hends : ∀ n, n < s.working.length →
      (getOp s.working n).start_time + (getOp s.working n).fma ≤ s.mkspan := by
    intro n hn
    obtain ⟨_, hth, hload⟩ := hA n hn (hall n hn)
    exact Nat.le_trans hload (hC _ hth)
  refine ⟨hval, ⟨hlen, hcore⟩, ?_, ?_⟩
  · intro hz
    have h1 : criticalPath base ≤ seqMakespan s.working := by
      refine cpLowerBound base s.working hlen.symm ?_ hz hprec
      intro u hu
      rw [← hlen] at hu
      exact sameCoreSymm (hcore u hu)
    refine Nat.le_trans h1 ?_
    unfold seqMakespan
    refine endFoldLe s.working 0 s.mkspan (Nat.zero_le _) ?_
    intro op hop
    obtain ⟨n, hn, hev⟩ := List.mem_iff_getElem.mp hop
    have : getOp s.working n = op := by
      unfold getOp
      rw [List.getD_eq_getElem s.working _ hn]
      exact hev
    rw [← this]
    exact hends n hn
  · have h2 : sequentialMakespan s.working = sequentialMakespan base := by
      refine sequentialMakespanCongr _ _ hlen ?_
      intro u hu
      exact (hcore u hu).2.2.2.2.2
    calc s.mkspan ≤ scheduledFma s.working := hE
      _ ≤ sequentialMakespan s.working := scheduledFmaLeTotal _
      _ = sequentialMakespan base := h2

/-! ### One-step unfolding of the thread loop -/

/-- When the tentative placement of `idx` on thread `t` passes the bound
test, the thread loop descends into a recursive frame with the thread
recorded. -/
theorem tlStepDescend (timeOK : Nat → Bool) (seqMs P lb0 fuel idx start t : Nat)
    (ts : List Nat) (triedEmpty : Bool) (s : BnbState)
    (hbreak : ¬(s.loads.getD t 0 = 0 ∧ triedEmpty))
    (hc : max (max ((s.idling + (max (s.loads.getD t 0) start - s.loads.getD t 0) + seqMs) / P)
          (criticalPath (setStart s.working idx (max (s.loads.getD t 0) start))))
        (max s.mkspan (max (s.loads.getD t 0) start + (getOp s.working idx).fma)) < s.best) :
    bnbThreadLoop timeOK seqMs P lb0 (fuel + 1) idx start (t :: ts) triedEmpty s =
      (let startTime := max (s.loads.getD t 0) start
       let s1 : BnbState :=
         { s with
           working := setStart s.working idx startTime
           loads := s.loads.set t (startTime + (getOp s.working idx).fma)
           idling := s.idling + (startTime - s.loads.getD t 0)
           mkspan := max s.mkspan (startTime + (getOp s.working idx).fma) }
       let r := bnbFrame timeOK seqMs P lb0 fuel
         { s1 with working := setThread s1.working idx t }
       if r.2 then (r.1, true)
       else
         bnbThreadLoop timeOK seqMs P lb0 fuel idx start ts
           (triedEmpty || decide (s.loads.getD t 0 = 0))
           { r.1 with
             loads := r.1.loads.set t (s.loads.getD t 0)
             idling := s.idling
             mkspan := s.mkspan
             working := setStart r.1.working idx ((getOp s.working idx).start_time) }) := by
  simp only [bnbThreadLoop]
  rw [if_neg hbreak, if_pos hc]

/-- When the tentative placement of `idx` on thread `t` fails the bound
test, the tentative assignment is undone exactly and the loop continues on
the next thread from precisely the entry state. -/
theorem tlStepSkip (timeOK : Nat → Bool) (seqMs P lb0 fuel idx start t : Nat)
    (ts : List Nat) (triedEmpty : Bool) (s : BnbState)
    (hbreak : ¬(s.loads.getD t 0 = 0 ∧ triedEmpty))
    (hc : ¬(max (max ((s.idling + (max (s.loads.getD t 0) start - s.loads.getD t 0) + seqMs) / P)
          (criticalPath (setStart s.working idx (max (s.loads.getD t 0) start))))
        (max s.mkspan (max (s.loads.getD t 0) start + (getOp s.working idx).fma)) < s.best)) :
    bnbThreadLoop timeOK seqMs P lb0 (fuel + 1) idx start (t :: ts) triedEmpty s =
      bnbThreadLoop timeOK seqMs P lb0 fuel idx start ts
        (triedEmpty || decide (s.loads.getD t 0 = 0)) s := by
  simp only [bnbThreadLoop]
  rw [if_neg hbreak, if_neg hc]
  have hl : ((s.loads.set t (max (s.loads.getD t 0) start +
      (getOp s.working idx).fma)).set t (s.loads.getD t 0)) = s.loads :=
    loadsRestore s.loads t _
  have hw : setStart (setStart s.working idx (max (s.loads.getD t 0) start)) idx
      ((getOp s.working idx).start_time) = s.working :=
    setStartRestore s.working idx _
  rw [hl, hw]
  simp

/-! ### The main invariant theorem of the branch-and-bound DFS -/

/-- Contract of one DFS frame: results only improve, the output is only ever
overwritten by valid schedules, and when the frame does not signal a stop the
entire search state is restored exactly (up to threads of unscheduled
operations). -/
def frameSpec (timeOK : Nat → Bool) (seqMs P lb0 ub0 : Nat)
    (orig base : List Operation) (fuel : Nat) : Prop :=
  ∀ s : BnbState, bnbPre P base s → bnbOutOk orig base ub0 s →
    bnbOutOk orig base ub0 (bnbFrame timeOK seqMs P lb0 fuel s).1 ∧
    (bnbFrame timeOK seqMs P lb0 fuel s).1.best ≤ s.best ∧
    ((bnbFrame timeOK seqMs P lb0 fuel s).2 = false →
      bnbRestored s.working.length s (bnbFrame timeOK seqMs P lb0 fuel s).1)

/-- Contract of the operation loop; additionally, when it reports that
everything was scheduled, every operation in the scanned index list really
was scheduled on entry. -/
def opLoopSpec (timeOK : Nat → Bool) (seqMs P lb0 ub0 : Nat)
    (orig base : List Operation) (fuel : Nat) : Prop :=
  ∀ (idxs : List Nat) (allSched : Bool) (s : BnbState),
    bnbPre P base s → bnbOutOk orig base ub0 s →
    (∀ i ∈ idxs, i < s.working.length) →
    bnbOutOk orig base ub0 (bnbOpLoop timeOK seqMs P lb0 fuel idxs allSched s).1 ∧
    (bnbOpLoop timeOK seqMs P lb0 fuel idxs allSched s).1.best ≤ s.best ∧
    ((bnbOpLoop timeOK seqMs P lb0 fuel idxs allSched s).2.2 = false →
      bnbRestored s.working.length s (bnbOpLoop timeOK seqMs P lb0 fuel idxs allSched s).1 ∧
      ((bnbOpLoop timeOK seqMs P lb0 fuel idxs allSched s).2.1 = true →
        allSched = true ∧
        ∀ i ∈ idxs, (getOp s.working i).is_scheduled = true))

/-- Contract of the thread loop for a fixed operation `idx`. -/
def tlSpec (timeOK : Nat → Bool) (seqMs P lb0 ub0 : Nat)
    (orig base : List Operation) (fuel : Nat) : Prop :=
  ∀ (idx start : Nat) (ts : List Nat) (triedEmpty : Bool) (s : BnbState),
    tlPre P base idx start s → bnbOutOk orig base ub0 s →
    (∀ t ∈ ts, t < P) →
    bnbOutOk orig base ub0
      (bnbThreadLoop timeOK seqMs P lb0 fuel idx start ts triedEmpty s).1 ∧
    (bnbThreadLoop timeOK seqMs P lb0 fuel idx start ts triedEmpty s).1.best ≤ s.best ∧
    ((bnbThreadLoop timeOK seqMs P lb0 fuel idx start ts triedEmpty s).2 = false →
      bnbRestored idx s
        (bnbThreadLoop timeOK seqMs P lb0 fuel idx start ts triedEmpty s).1)

theorem bnbMainSpec (timeOK : Nat → Bool) (seqMs P lb0 ub0 : Nat)
    (orig base : List Operation) :
    ∀ fuel : Nat,
      frameSpec timeOK seqMs P lb0 ub0 orig base fuel ∧
      opLoopSpec timeOK seqMs P lb0 ub0 orig base fuel ∧
      tlSpec timeOK seqMs P lb0 ub0 orig base fuel := by
  intro fuel
  induction fuel with
  | zero =>
    refine ⟨?_, ?_, ?_⟩
    · intro s _ hout
      exact ⟨hout, Nat.le_refl _, fun _ => bnbRestoredRefl _ _⟩
    · intro idxs allSched s _ hout _
      exact ⟨hout, Nat.le_refl _, fun _ =>
        ⟨bnbRestoredRefl _ _, fun hcon => absurd hcon (by simp [bnbOpLoop])⟩⟩
    · intro idx start ts triedEmpty s _ hout _
      exact ⟨hout, Nat.le_refl _, fun _ => bnbRestoredRefl _ _⟩
  | succ f ih =>
    obtain ⟨ihF, ihO, ihT⟩ := ih
    have hFrame : frameSpec timeOK seqMs P lb0 ub0 orig base (f + 1) := by
      intro s hpre hout
      by_cases htime : timeOK s.clock = true
      · -- timer still running: run the operation loop
        have hunfold : bnbFrame timeOK seqMs P lb0 (f + 1) s =
            (let r := bnbOpLoop timeOK seqMs P lb0 f
              (List.range s.working.length) true { s with clock := s.clock + 1 }
             if r.2.2 then (r.1, true)
             else if r.2.1 then
               if r.1.mkspan < r.1.best then
                 let s2 := { r.1 with best := r.1.mkspan, out := r.1.working }
                 if s2.best ≤ lb0 then (s2, true) else (s2, false)
               else (r.1, false)
             else (r.1, false)) := by
          simp only [bnbFrame, htime, Bool.not_true, Bool.false_eq_true, if_false]
        rw [hunfold]
        have hpreC : bnbPre P base { s with clock := s.clock + 1 } := hpre
        have houtC : bnbOutOk orig base ub0 { s with clock := s.clock + 1 } := hout
        have hO := ihO (List.range s.working.length) true
          { s with clock := s.clock + 1 } hpreC houtC
          (fun i hi => List.mem_range.mp hi)
        set r := bnbOpLoop timeOK seqMs P lb0 f
          (List.range s.working.length) true { s with clock := s.clock + 1 } with hr
        obtain ⟨hO1, hO2, hO3⟩ := hO
        by_cases hstop : r.2.2 = true
        · simp only [hstop, if_true]
          exact ⟨hO1, hO2, fun hcon => absurd hcon (by simp)⟩
        · rw [Bool.not_eq_true] at hstop
          simp only [hstop, Bool.false_eq_true, if_false]
          obtain ⟨hrest, hallimp⟩ := hO3 hstop
          by_cases hallS : r.2.1 = true
          · simp only [hallS, if_true]
            obtain ⟨_, hallmem⟩ := hallimp hallS
            have hall : ∀ n, n < s.working.length →
                (getOp s.working n).is_scheduled = true := by
              intro n hn
              exact hallmem n (List.mem_range.mpr hn)
            have hweq : r.1.working = s.working :=
              restoredAllSchedEq hrest hall
            by_cases himp : r.1.mkspan < r.1.best
            · simp only [himp, if_true]
              have hmkeq : r.1.mkspan = s.mkspan := hrest.2.2.1
              obtain ⟨hval, hcoreq, hcp, hseq⟩ := leafFacts hpre hall
              have hout2 : bnbOutOk orig base ub0
                  { r.1 with best := r.1.mkspan, out := r.1.working } := by
                refine ⟨Or.inr ⟨by rw [hweq]; exact hval, by rw [hweq]; exact hcoreq⟩,
                  ?_, ?_, ?_⟩
                · show r.1.mkspan ≤ ub0
                  exact Nat.le_trans (Nat.le_of_lt himp) (Nat.le_trans hO2 hout.2.1)
                · intro hz _
                  show criticalPath base ≤ r.1.mkspan
                  rw [hmkeq]
                  exact hcp hz
                · intro _
                  show r.1.mkspan ≤ sequentialMakespan base
                  rw [hmkeq]
                  exact hseq
              have hbest2 : r.1.mkspan ≤ s.best :=
                Nat.le_trans (Nat.le_of_lt himp) hO2
              by_cases hlow : r.1.mkspan ≤ lb0
              · simp only [hlow, if_true]
                exact ⟨hout2, hbest2, fun hcon => absurd hcon (by simp)⟩
              · simp only [hlow, if_false]
                refine ⟨hout2, hbest2, fun _ => ?_⟩
                exact ⟨hrest.1, hrest.2.1, hrest.2.2.1, hrest.2.2.2.1, hrest.2.2.2.2⟩
            · simp only [himp, if_false]
              exact ⟨hO1, hO2, fun _ => hrest⟩
          · rw [Bool.not_eq_true] at hallS
            simp only [hallS, Bool.false_eq_true, if_false]
            exact ⟨hO1, hO2, fun _ => hrest⟩
      · -- time is up: stop immediately
        rw [Bool.not_eq_true] at htime
        have hunfold : bnbFrame timeOK seqMs P lb0 (f + 1) s =
            ({ s with clock := s.clock + 1 }, true) := by
          simp only [bnbFrame, htime]
          rfl
        rw [hunfold]
        exact ⟨hout, Nat.le_refl _, fun hcon => absurd hcon (by simp)⟩
    refine ⟨hFrame, ?_, ?_⟩
    · -- the operation loop
      intro idxs allSched s hpre hout hbounds
      cases idxs with
      | nil =>
        simp only [bnbOpLoop]
        refine ⟨hout, Nat.le_refl _, fun _ => ⟨bnbRestoredRefl _ _, fun ha => ⟨ha, ?_⟩⟩⟩
        intro i hi
        exact absurd hi (List.not_mem_nil i)
      | cons idx rest =>
        have hidx : idx < s.working.length := hbounds idx (List.mem_cons_self idx rest)
        have hboundsRest : ∀ i ∈ rest, i < s.working.length :=
          fun i hi => hbounds i (List.mem_cons_of_mem idx hi)
        by_cases hsch : (getOp s.working idx).is_scheduled = true
        · have hunfold : bnbOpLoop timeOK seqMs P lb0 (f + 1) (idx :: rest) allSched s =
              bnbOpLoop timeOK seqMs P lb0 f rest allSched s := by
            simp only [bnbOpLoop, hsch, if_true]
          rw [hunfold]
          have hO := ihO rest allSched s hpre hout hboundsRest
          refine ⟨hO.1, hO.2.1, fun hstop => ?_⟩
          obtain ⟨hrest2, hallimp⟩ := hO.2.2 hstop
          refine ⟨hrest2, fun hall => ?_⟩
          obtain ⟨ha, hmem⟩ := hallimp hall
          refine ⟨ha, fun i hi => ?_⟩
          rcases List.mem_cons.mp hi with h1 | h2
          · subst h1; exact hsch
          · exact hmem i h2
        · rw [Bool.not_eq_true] at hsch
          by_cases hschedulable : isSchedulable s.working idx = true
          · -- schedule idx and run the thread loop
            have hunfold : bnbOpLoop timeOK seqMs P lb0 (f + 1) (idx :: rest) allSched s =
                (let r := bnbThreadLoop timeOK seqMs P lb0 f idx
                  (earliestStart (setSched s.working idx true) idx) (List.range P) false
                  { s with working := setSched s.working idx true }
                 if r.2 then (r.1, false, true)
                 else
                   bnbOpLoop timeOK seqMs P lb0 f rest false
                     { r.1 with working := setSched r.1.working idx false }) := by
              simp only [bnbOpLoop, hsch, Bool.false_eq_true, if_false, hschedulable,
                Bool.not_true, if_true]
            rw [hunfold]
            have htl := tlPreOfPre hpre hidx hsch hschedulable
            have houtT : bnbOutOk orig base ub0
                { s with working := setSched s.working idx true } := hout
            have hT := ihT idx (earliestStart (setSched s.working idx true) idx)
              (List.range P) false { s with working := setSched s.working idx true }
              htl houtT (fun t ht => List.mem_range.mp ht)
            set r := bnbThreadLoop timeOK seqMs P lb0 f idx
              (earliestStart (setSched s.working idx true) idx) (List.range P) false
              { s with working := setSched s.working idx true } with hrdef
            obtain ⟨hT1, hT2, hT3⟩ := hT
            by_cases hstop : r.2 = true
            · simp only [hstop, if_true]
              exact ⟨hT1, hT2, fun hcon => absurd hcon (by simp)⟩
            · rw [Bool.not_eq_true] at hstop
              simp only [hstop, Bool.false_eq_true, if_false]
              have hrestT := hT3 hstop
              -- the composite of flag set, thread loop and flag clear restores s
              have hlen1 : r.1.working.length = s.working.length := by
                have h1 := hrestT.2.2.2.1
                have h2 : (setSched s.working idx true).length = s.working.length :=
                  setSchedLength s.working idx true
                rw [show ({ s with working := setSched s.working idx true } :
                  BnbState).working = setSched s.working idx true from rfl] at h1
                rw [h1, h2]
              have hrel2 : bnbRestored s.working.length s
                  { r.1 with working := setSched r.1.working idx false } := by
                refine ⟨hrestT.1, hrestT.2.1, hrestT.2.2.1, ?_, ?_⟩
                · show (setSched r.1.working idx false).length = s.working.length
                  rw [setSchedLength, hlen1]
                · intro n hn
                  by_cases hne : n = idx
                  · subst hne
                    have hpt := hrestT.2.2.2.2 n (by
                      show n < ({ s with working := setSched s.working n true } :
                        BnbState).working.length
                      rw [show ({ s with working := setSched s.working n true} :
                        BnbState).working = setSched s.working n true from rfl,
                        setSchedLength]
                      exact hn)
                    have hg : getOp (setSched r.1.working n false) n =
                        { getOp r.1.working n with is_scheduled := false } :=
                      getOpSetSchedEq r.1.working n false (by rw [hlen1]; exact hn)
                    have hg2 : getOp ({ s with working := setSched s.working n true} :
                        BnbState).working n = { getOp s.working n with is_scheduled := true} :=
                      getOpSetSchedEq s.working n true hn
                    constructor
                    · show getOp (setSched r.1.working n false) n =
                        { getOp s.working n with
                          thread := (getOp (setSched r.1.working n false) n).thread }
                      rw [hg, hpt.1, hg2]
                      simp [hsch]
                    · intro hcon _
                      rw [hsch] at hcon
                      exact absurd hcon (by simp)
                  · have hpt := hrestT.2.2.2.2 n (by
                      show n < ({ s with working := setSched s.working idx true } :
                        BnbState).working.length
                      rw [show ({ s with working := setSched s.working idx true} :
                        BnbState).working = setSched s.working idx true from rfl,
                        setSchedLength]
                      exact hn)
                    have hg : getOp (setSched r.1.working idx false) n =
                        getOp r.1.working n :=
                      getOpSetSchedNe r.1.working idx false n hne
                    have hg2 : getOp ({ s with working := setSched s.working idx true} :
                        BnbState).working n = getOp s.working n :=
                      getOpSetSchedNe s.working idx true n hne
                    constructor
                    · show getOp (setSched r.1.working idx false) n =
                        { getOp s.working n with
                          thread := (getOp (setSched r.1.working idx false) n).thread }
                      rw [hg, hpt.1, hg2]
                    · intro hs2 hne2
                      show (getOp (setSched r.1.working idx false) n).thread =
                        (getOp s.working n).thread
                      rw [hg]
                      have := hpt.2 (by rw [hg2]; exact hs2) hne
                      rw [this, hg2]
              have hpre2 : bnbPre P base
                  { r.1 with working := setSched r.1.working idx false } :=
                bnbPreStable hrel2 hpre
              have hout2 : bnbOutOk orig base ub0
                  { r.1 with working := setSched r.1.working idx false } := hT1
              have hbounds2 : ∀ i ∈ rest,
                  i < ({ r.1 with working := setSched r.1.working idx false } :
                    BnbState).working.length := by
                intro i hi
                show i < (setSched r.1.working idx false).length
                rw [setSchedLength, hlen1]
                exact hboundsRest i hi
              have hO := ihO rest false
                { r.1 with working := setSched r.1.working idx false } hpre2 hout2 hbounds2
              refine ⟨hO.1, Nat.le_trans hO.2.1 hT2, fun hstop2 => ?_⟩
              obtain ⟨hrest3, hallimp⟩ := hO.2.2 hstop2
              constructor
              · have := bnbRestoredTrans hrel2 (by
                  rw [show ({ r.1 with working := setSched r.1.working idx false } :
                    BnbState).working.length = s.working.length from by
                      show (setSched r.1.working idx false).length = s.working.length
                      rw [setSchedLength, hlen1]] at hrest3
                  exact hrest3)
                exact this
              · intro hall
                obtain ⟨hcon, _⟩ := hallimp hall
                exact absurd hcon (by simp)
          · -- not schedulable: skip
            rw [Bool.not_eq_true] at hschedulable
            have hunfold : bnbOpLoop timeOK seqMs P lb0 (f + 1) (idx :: rest) allSched s =
                bnbOpLoop timeOK seqMs P lb0 f rest false s := by
              simp only [bnbOpLoop, hsch, Bool.false_eq_true, if_false, hschedulable,
                Bool.not_false, if_true]
            rw [hunfold]
            have hO := ihO rest false s hpre hout hboundsRest
            refine ⟨hO.1, hO.2.1, fun hstop => ?_⟩
            obtain ⟨hrest2, hallimp⟩ := hO.2.2 hstop
            refine ⟨hrest2, fun hall => ?_⟩
            obtain ⟨hcon, _⟩ := hallimp hall
            exact absurd hcon (by simp)
    · -- the thread loop
      intro idx start ts triedEmpty s hpre hout hts
      cases ts with
      | nil =>
        simp only [bnbThreadLoop]
        exact ⟨hout, Nat.le_refl _, fun _ => bnbRestoredRefl _ _⟩
      | cons t ts2 =>
        have htP : t < P := hts t (List.mem_cons_self t ts2)
        have htsRest : ∀ t2 ∈ ts2, t2 < P :=
          fun t2 ht2 => hts t2 (List.mem_cons_of_mem t ht2)
        by_cases hbreak : s.loads.getD t 0 = 0 ∧ triedEmpty = true
        · have hunfold : bnbThreadLoop timeOK seqMs P lb0 (f + 1) idx start
              (t :: ts2) triedEmpty s = (s, false) := by
            simp only [bnbThreadLoop]
            rw [if_pos hbreak]
          rw [hunfold]
          exact ⟨hout, Nat.le_refl _, fun _ => bnbRestoredRefl _ _⟩
        · by_cases hcond : max (max (((s.idling + (max (s.loads.getD t 0) start -
              s.loads.getD t 0)) + seqMs) / P)
              (criticalPath (setStart s.working idx (max (s.loads.getD t 0) start))))
              (max s.mkspan (max (s.loads.getD t 0) start + (getOp s.working idx).fma))
              < s.best
          · -- descend into the recursive frame
            have hunfold := tlStepDescend timeOK seqMs P lb0 f idx start t ts2
              triedEmpty s hbreak hcond
            rw [hunfold]
            have hpreF := placementPre hpre htP
            have hF := ihF _ hpreF hout
            obtain ⟨hF1, hF2, hF3⟩ := hF
            dsimp only
            split
            · -- the recursive frame signalled a stop: unwind immediately
              exact ⟨hF1, hF2, fun hcon => absurd hcon (by simp)⟩
            · -- continue with the next thread from the exactly restored state
              rename_i hstop
              rw [Bool.not_eq_true] at hstop
              have hrestF := hF3 hstop
              -- names for the pieces of the tentative state
              have hsFlen : (setThread (setStart s.working idx
                  (max (s.loads.getD t 0) start)) idx t).length = s.working.length := by
                rw [setThreadLength, setStartLength]
              set rr := bnbFrame timeOK seqMs P lb0 f
                { working := setThread (setStart s.working idx
                    (max (s.loads.getD t 0) start)) idx t
                  loads := s.loads.set t (max (s.loads.getD t 0) start +
                    (getOp s.working idx).fma)
                  idling := s.idling + (max (s.loads.getD t 0) start - s.loads.getD t 0)
                  mkspan := max s.mkspan (max (s.loads.getD t 0) start +
                    (getOp s.working idx).fma)
                  best := s.best, out := s.out, clock := s.clock } with hrr
              have hlenR : rr.1.working.length = s.working.length := by
                have hl2 : rr.1.working.length = (setThread (setStart s.working idx
                    (max (s.loads.getD t 0) start)) idx t).length := hrestF.2.2.2.1
                rw [hl2, hsFlen]
              have hrel3 : bnbRestored idx s
                  { rr.1 with
                    loads := rr.1.loads.set t (s.loads.getD t 0)
                    idling := s.idling
                    mkspan := s.mkspan
                    working := setStart rr.1.working idx
                      ((getOp s.working idx).start_time) } := by
                refine ⟨?_, rfl, rfl, ?_, ?_⟩
                · show (rr.1.loads.set t (s.loads.getD t 0)) = s.loads
                  have hl1 : rr.1.loads = s.loads.set t (max (s.loads.getD t 0) start +
                      (getOp s.working idx).fma) := hrestF.1
                  rw [hl1]
                  exact loadsRestore s.loads t _
                · show (setStart rr.1.working idx ((getOp s.working idx).start_time)).length
                    = s.working.length
                  rw [setStartLength, hlenR]
                · intro n hn
                  have hptF : getOp rr.1.working n =
                      { getOp (setThread (setStart s.working idx
                          (max (s.loads.getD t 0) start)) idx t) n with
                        thread := (getOp rr.1.working n).thread } ∧
                      ((getOp (setThread (setStart s.working idx
                          (max (s.loads.getD t 0) start)) idx t) n).is_scheduled = true →
                        n ≠ (setThread (setStart s.working idx
                          (max (s.loads.getD t 0) start)) idx t).length →
                        (getOp rr.1.working n).thread =
                          (getOp (setThread (setStart s.working idx
                            (max (s.loads.getD t 0) start)) idx t) n).thread) :=
                    hrestF.2.2.2.2 n (by
                      show n < (setThread (setStart s.working idx
                        (max (s.loads.getD t 0) start)) idx t).length
                      rw [hsFlen]; exact hn)
                  by_cases hne : n = idx
                  · subst hne
                    have hidxR : n < rr.1.working.length := by rw [hlenR]; exact hn
                    have hg3 : getOp (setStart rr.1.working n
                        ((getOp s.working n).start_time)) n =
                        { getOp rr.1.working n with
                          start_time := (getOp s.working n).start_time } :=
                      getOpSetStartEq rr.1.working n _ hidxR
                    have hg4 : getOp (setThread (setStart s.working n
                        (max (s.loads.getD t 0) start)) n t) n =
                        { { getOp s.working n with
                            start_time := max (s.loads.getD t 0) start } with thread := t } := by
                      rw [getOpSetThreadEq _ n t (by rw [setStartLength]; exact hn),
                        getOpSetStartEq s.working n _ hn]
                    constructor
                    · show getOp (setStart rr.1.working n ((getOp s.working n).start_time)) n =
                        { getOp s.working n with
                          thread := (getOp (setStart rr.1.working n
                            ((getOp s.working n).start_time)) n).thread }
                      rw [hg3, hptF.1, hg4]
                    · intro _ hne2
                      exact absurd rfl hne2
                  · have hg3 : getOp (setStart rr.1.working idx
                        ((getOp s.working idx).start_time)) n = getOp rr.1.working n :=
                      getOpSetStartNe rr.1.working idx _ n hne
                    have hg4 : getOp (setThread (setStart s.working idx
                        (max (s.loads.getD t 0) start)) idx t) n = getOp s.working n := by
                      rw [getOpSetThreadNe _ idx t n hne, getOpSetStartNe s.working idx _ n hne]
                    constructor
                    · show getOp (setStart rr.1.working idx
                          ((getOp s.working idx).start_time)) n =
                        { getOp s.working n with
                          thread := (getOp (setStart rr.1.working idx
                            ((getOp s.working idx).start_time)) n).thread }
                      rw [hg3, hptF.1, hg4]
                    · intro hs2 _
                      show (getOp (setStart rr.1.working idx
                        ((getOp s.working idx).start_time)) n).thread =
                        (getOp s.working n).thread
                      rw [hg3]
                      have hschF : (getOp (setThread (setStart s.working idx
                          (max (s.loads.getD t 0) start)) idx t) n).is_scheduled = true := by
                        rw [hg4]; exact hs2
                      have := hptF.2 hschF (by rw [hsFlen]; exact Nat.ne_of_lt hn)
                      rw [this, hg4]
              have hpre3 := tlPreStable hrel3 hpre
              have hout3 : bnbOutOk orig base ub0
                  { rr.1 with
                    loads := rr.1.loads.set t (s.loads.getD t 0)
                    idling := s.idling
                    mkspan := s.mkspan
                    working := setStart rr.1.working idx
                      ((getOp s.working idx).start_time) } := hF1
              have hT3 := ihT idx start ts2 (triedEmpty || decide (s.loads.getD t 0 = 0))
                _ hpre3 hout3 htsRest
              refine ⟨hT3.1, Nat.le_trans hT3.2.1 hF2, fun hstop2 => ?_⟩
              exact bnbRestoredTrans hrel3 (hT3.2.2 hstop2)
          · have hunfold := tlStepSkip timeOK seqMs P lb0 f idx start t ts2
              triedEmpty s hbreak hcond
            rw [hunfold]
            exact ihT idx start ts2 (triedEmpty || decide (s.loads.getD t 0 = 0)) s
              hpre hout htsRest

/-! ### Congruence of the sequence queries under schedule-field changes -/

theorem findCongr (p q : Nat → Bool) :
    ∀ l : List Nat, (∀ i ∈ l, p i = q i) → l.find? p = l.find? q := by
  intro l
  induction l with
  | nil => intro _; rfl
  | cons a l ih =>
    intro h
    have ha := h a (List.mem_cons_self a l)
    by_cases hp : p a = true
    · rw [List.find?_cons_of_pos _ hp, List.find?_cons_of_pos _ (ha ▸ hp)]
    · rw [Bool.not_eq_true] at hp
      rw [List.find?_cons_of_neg _ (by simp [hp]),
        List.find?_cons_of_neg _ (by simp [← ha, hp])]
      exact ih (fun i hi => h i (List.mem_cons_of_mem a hi))

theorem seqParentCongr (s t : List Operation) (hlen : s.length = t.length)
    (hcore : ∀ u, u < s.length → sameCore (getOp s u) (getOp t u))
    (idx : Nat) (hidx : idx < s.length) :
    seqParent s idx = seqParent t idx := by
  unfold seqParent
  rw [← hlen]
  refine findCongr _ _ _ ?_
  intro i hi
  exact opLtCongr (hcore i (List.mem_range.mp hi)) (hcore idx hidx)

theorem cpFromCongr (s t : List Operation) (hlen : s.length = t.length)
    (hcore : ∀ u, u < s.length → sameCore (getOp s u) (getOp t u))
    (hstart : ∀ u, u < s.length →
      (getOp s u).start_time = (getOp t u).start_time) :
    ∀ (fuel idx st : Nat), idx < s.length →
      criticalPathFrom s fuel idx st = criticalPathFrom t fuel idx st := by
  intro fuel
  induction fuel with
  | zero => intro idx st _; rfl
  | succ f ihf =>
    intro idx st hidx
    simp only [criticalPathFrom]
    rw [← hstart idx hidx, ← (hcore idx hidx).2.2.2.2.2,
      ← seqParentCongr s t hlen hcore idx hidx]
    cases hp : seqParent s idx with
    | none => rfl
    | some p =>
      obtain ⟨hplen, _⟩ := seqParentMem hp
      exact ihf p _ hplen

theorem maxFoldCongr (f g : Nat → Nat) :
    ∀ (l : List Nat) (a : Nat), (∀ i ∈ l, f i = g i) →
      maxFold f l a = maxFold g l a := by
  intro l
  induction l with
  | nil => intro a _; rfl
  | cons i l ih =>
    intro a h
    have hi := h i (List.mem_cons_self i l)
    show maxFold f l (max a (f i)) = maxFold g l (max a (g i))
    rw [hi]
    exact ih _ (fun j hj => h j (List.mem_cons_of_mem i hj))

theorem criticalPathCongr (s t : List Operation) (hlen : s.length = t.length)
    (hcore : ∀ u, u < s.length → sameCore (getOp s u) (getOp t u))
    (hstart : ∀ u, u < s.length →
      (getOp s u).start_time = (getOp t u).start_time) :
    criticalPath s = criticalPath t := by
  unfold criticalPath
  rw [← hlen]
  refine maxFoldCongr _ _ _ 0 ?_
  intro i hi
  rw [hlen]
  exact cpFromCongr s t hlen hcore hstart t.length i 0 (List.mem_range.mp hi)

theorem resetScheduledCore (s : List Operation) :
    ∀ u, u < s.length → sameCore (getOp (resetScheduled s) u) (getOp s u) := by
  intro u _
  rw [resetScheduledGetOp]
  exact ⟨rfl, rfl, rfl, rfl, rfl, rfl⟩

theorem resetScheduledCriticalPath (s : List Operation) :
    criticalPath (resetScheduled s) = criticalPath s := by
  refine criticalPathCongr _ _ (resetScheduledLength s) ?_ ?_
  · intro u hu
    rw [resetScheduledLength] at hu
    exact resetScheduledCore s u hu
  · intro u _
    rw [resetScheduledGetOp]

theorem resetScheduledSeqMs (s : List Operation) :
    sequentialMakespan (resetScheduled s) = sequentialMakespan s := by
  refine sequentialMakespanCongr _ _ (resetScheduledLength s) ?_
  intro u _
  rw [resetScheduledGetOp]

theorem resetScheduledZeroStarts (s : List Operation) (h : zeroStarts s) :
    zeroStarts (resetScheduled s) := by
  intro u hu
  rw [resetScheduledLength] at hu
  rw [resetScheduledGetOp]
  exact h u hu

/-! ### Top-level facts about the branch-and-bound scheduler -/

theorem bnbScheduleImplFacts (timeOK : Nat → Bool) (fuel : Nat)
    (orig : List Operation) (P ub : Nat) :
    ((bnbScheduleImpl timeOK fuel orig P ub).2 = orig ∨
      (validSchedule (bnbScheduleImpl timeOK fuel orig P ub).2 ∧
        coreEq (bnbScheduleImpl timeOK fuel orig P ub).2 (resetScheduled orig))) ∧
    ((bnbScheduleImpl timeOK fuel orig P ub).1 < ub →
      (zeroStarts orig → criticalPath orig ≤ (bnbScheduleImpl timeOK fuel orig P ub).1) ∧
      (bnbScheduleImpl timeOK fuel orig P ub).1 ≤ sequentialMakespan orig) := by
  by_cases hcut : ub ≤ criticalPath (resetScheduled orig)
  · have hunfold : bnbScheduleImpl timeOK fuel orig P ub =
        (criticalPath (resetScheduled orig), orig) := by
      unfold bnbScheduleImpl
      rw [if_pos hcut]
    rw [hunfold]
    exact ⟨Or.inl rfl, fun hcon => absurd hcut (Nat.not_le_of_lt hcon)⟩
  · have hunfold : bnbScheduleImpl timeOK fuel orig P ub =
        ((bnbFrame timeOK (sequentialMakespan orig) P
            (criticalPath (resetScheduled orig)) fuel
            { working := resetScheduled orig, loads := List.replicate P 0, mkspan := 0,
              idling := 0, best := ub, out := orig, clock := 0 }).1.best,
         (bnbFrame timeOK (sequentialMakespan orig) P
            (criticalPath (resetScheduled orig)) fuel
            { working := resetScheduled orig, loads := List.replicate P 0, mkspan := 0,
              idling := 0, best := ub, out := orig, clock := 0 }).1.out) := by
      unfold bnbScheduleImpl
      rw [if_neg hcut]
    rw [hunfold]
    have hpre : bnbPre P (resetScheduled orig)
        { working := resetScheduled orig, loads := List.replicate P 0, mkspan := 0,
          idling := 0, best := ub, out := orig, clock := 0 } := by
      refine ⟨⟨?_, ?_, ?_, ?_, ?_⟩, rfl, ?_⟩
      · exact List.length_replicate P 0
      · intro u hu hsch
        rw [resetScheduledGetOp] at hsch
        exact absurd hsch (by simp)
      · intro u v _ _ _ hsu _ _
        rw [resetScheduledGetOp] at hsu
        exact absurd hsu (by simp)
      · intro t _
        show (List.replicate P 0).getD t 0 ≤ 0
        rw [replicateGetD]
      · exact Nat.zero_le _
      · intro u _
        exact sameCoreRefl _
    have hout : bnbOutOk orig (resetScheduled orig) ub
        { working := resetScheduled orig, loads := List.replicate P 0, mkspan := 0,
          idling := 0, best := ub, out := orig, clock := 0 } := by
      refine ⟨Or.inl rfl, Nat.le_refl _, ?_, ?_⟩
      · intro _ hcon
        exact absurd hcon (Nat.lt_irrefl _)
      · intro hcon
        exact absurd hcon (Nat.lt_irrefl _)
    have hF := (bnbMainSpec timeOK (sequentialMakespan orig) P
      (criticalPath (resetScheduled orig)) ub orig (resetScheduled orig) fuel).1
      _ hpre hout
    obtain ⟨⟨hout1, _, hlow, hhigh⟩, _, _⟩ := hF
    refine ⟨hout1, fun hfound => ⟨?_, ?_⟩⟩
    · intro hz
      calc criticalPath orig = criticalPath (resetScheduled orig) :=
            (resetScheduledCriticalPath orig).symm
        _ ≤ _ := hlow (resetScheduledZeroStarts orig hz) hfound
    · calc _ ≤ sequentialMakespan (resetScheduled orig) := hhigh hfound
        _ = sequentialMakespan orig := resetScheduledSeqMs orig

/-! ### Invariant of the priority-list scheduler -/

theorem foldlInvariant {α β : Type} (f : β → α → β) (Inv : β → Prop) :
    ∀ (l : List α) (b : β), Inv b →
      (∀ b2 a, a ∈ l → Inv b2 → Inv (f b2 a)) → Inv (l.foldl f b) := by
  intro l
  induction l with
  | nil => intro b hb _; exact hb
  | cons a l ih =>
    intro b hb hstep
    exact ih (f b a) (hstep b a (List.mem_cons_self a l) hb)
      (fun b2 a2 ha2 hb2 => hstep b2 a2 (List.mem_cons_of_mem a ha2) hb2)

/-- The thread scan of the priority-list scheduler picks a thread below `P`
and starts the operation at `max(thread_load, earliest_start)`. -/
theorem plChooseThreadSpec (loads : List Nat) (P earliest : Nat) (hP : 0 < P) :
    (plChooseThread loads P earliest).1 < P ∧
    (plChooseThread loads P earliest).2.1 =
      max (loads.getD (plChooseThread loads P earliest).1 0) earliest := by
  unfold plChooseThread
  refine foldlInvariant _
    (fun best : Nat × Nat × Nat => best.1 < P ∧ best.2.1 = max (loads.getD best.1 0) earliest)
    (List.range (P - 1)) _ ⟨hP, rfl⟩ ?_
  intro b tm1 hmem hb
  have ht : tm1 + 1 < P := by
    have := List.mem_range.mp hmem
    omega
  dsimp only
  split
  · exact ⟨ht, rfl⟩
  · split
    · exact ⟨ht, rfl⟩
    · exact hb

/-- Invariant of the queue loop of `PriorityListScheduler::schedule_impl`:
`pre` is the list of already-popped operation indices. -/
def plInv (s : List Operation) (P : Nat) (pre : List Nat) (st : PLState) : Prop :=
  st.ops.length = s.length ∧
  st.loads.length = P ∧
  (∀ n, n < s.length → sameCore (getOp st.ops n) (getOp s n)) ∧
  (∀ n, n < s.length → n ∉ pre →
    getOp st.ops n = { getOp s n with is_scheduled := false }) ∧
  (∀ n ∈ pre, n < s.length ∧ (getOp st.ops n).is_scheduled = true) ∧
  (∀ n ∈ pre, ∀ v, v < s.length →
    opLt (getOp st.ops n) (getOp st.ops v) = true →
    v ∈ pre ∧ (getOp st.ops v).start_time + (getOp st.ops v).fma ≤
      (getOp st.ops n).start_time) ∧
  (∀ n ∈ pre, (getOp st.ops n).thread < P ∧
    (getOp st.ops n).start_time + (getOp st.ops n).fma ≤
      st.loads.getD (getOp st.ops n).thread 0) ∧
  (∀ n ∈ pre, ∀ m ∈ pre, n ≠ m →
    (getOp st.ops n).thread = (getOp st.ops m).thread →
    ((getOp st.ops n).start_time + (getOp st.ops n).fma ≤ (getOp st.ops m).start_time ∨
      (getOp st.ops m).start_time + (getOp st.ops m).fma ≤ (getOp st.ops n).start_time))

/-- One pop step preserves the priority-list invariant, given that every
producer strictly dominates its consumer in `level` and the remaining pop
order is consistent with the comparator. -/
theorem plStepInv (s : List Operation) (P : Nat) (hP : 0 < P)
    (Hlev : ∀ u v, u < s.length → v < s.length →
      opLt (getOp s u) (getOp s v) = true → seqLevel s u < seqLevel s v)
    (pre rest : List Nat) (opIdx : Nat) (st : PLState)
    (hbounds : ∀ i ∈ pre ++ opIdx :: rest, i < s.length)
    (hnodup : (pre ++ opIdx :: rest).Nodup)
    (hpw : (pre ++ opIdx :: rest).Pairwise (fun a b => ¬plKeyLt s a b))
    (hcov : ∀ v, v < s.length → v ∈ pre ++ opIdx :: rest)
    (hinv : plInv s P pre st) :
    plInv s P (pre ++ [opIdx]) (plStep P st opIdx) := by
  obtain ⟨hlen, hL, hcore, hun, hsch, hprec, hthr, hdisj⟩ := hinv
  have hidx : opIdx < s.length :=
    hbounds opIdx (List.mem_append_right pre (List.mem_cons_self opIdx rest))
  have hno : opIdx ∉ pre := by
    intro hc
    have := List.disjoint_of_nodup_append hnodup
    exact this hc (List.mem_cons_self opIdx rest)
  -- producers of opIdx are already popped
  have hOpLtS : ∀ u v, u < s.length → v < s.length →
      opLt (getOp st.ops u) (getOp st.ops v) = opLt (getOp s u) (getOp s v) :=
    fun u v hu hv => opLtCongr (hcore u hu) (hcore v hv)
  have hprodPre : ∀ v, v < s.length →
      opLt (getOp st.ops opIdx) (getOp st.ops v) = true → v ∈ pre := by
    intro v hv hp
    rw [hOpLtS opIdx v hidx hv] at hp
    have hlev := Hlev opIdx v hidx hv hp
    have hkey : plKeyLt s opIdx v := Or.inl hlev
    rcases List.mem_append.mp (hcov v hv) with h1 | h2
    · exact h1
    · rcases List.mem_cons.mp h2 with h3 | h4
      · subst h3
        exact absurd hlev (Nat.lt_irrefl _)
      · have hpw2 := (List.pairwise_append.mp hpw).2.1
        have := (List.pairwise_cons.mp hpw2).1 v h4
        exact absurd hkey this
  -- no already-popped operation consumes opIdx
  have hnocons : ∀ n ∈ pre, opLt (getOp st.ops n) (getOp st.ops opIdx) = false := by
    intro n hn
    have hnlt := (hsch n hn).1
    rw [hOpLtS n opIdx hnlt hidx]
    rw [Bool.eq_false_iff]
    intro hp
    have hlev := Hlev n opIdx hnlt hidx hp
    have hkey : plKeyLt s n opIdx := Or.inl hlev
    have hpw1 := (List.pairwise_append.mp hpw).2.2
    exact absurd hkey (hpw1 n hn opIdx (List.mem_cons_self opIdx rest))
  -- data of the step
  obtain ⟨hthP, hstartEq⟩ :=
    plChooseThreadSpec st.loads P (earliestStart st.ops opIdx) hP
  set earliest := earliestStart st.ops opIdx with hearliest
  set choice := plChooseThread st.loads P earliest with hchoice
  set strt := choice.2.1 with hstrt
  have hstrtLoad : st.loads.getD choice.1 0 ≤ strt := by
    rw [hstartEq]
    exact Nat.le_max_left _ _
  have hstrtEarliest : earliest ≤ strt := by
    rw [hstartEq]
    exact Nat.le_max_right _ _
  have hops2 : (plStep P st opIdx).ops = st.ops.set opIdx
      { getOp st.ops opIdx with thread := choice.1, start_time := strt, is_scheduled := true } := rfl
  have hloads2 : (plStep P st opIdx).loads =
      st.loads.set choice.1 (strt + (getOp st.ops opIdx).fma) := rfl
  have hlenidx : opIdx < st.ops.length := by rw [hlen]; exact hidx
  have hgetNew : getOp (plStep P st opIdx).ops opIdx =
      { getOp st.ops opIdx with thread := choice.1, start_time := strt, is_scheduled := true } := by
    rw [hops2]; exact getOpSetEq st.ops opIdx _ hlenidx
  have hgetOld : ∀ n, n ≠ opIdx →
      getOp (plStep P st opIdx).ops n = getOp st.ops n := by
    intro n hn
    rw [hops2]; exact getOpSetNe st.ops opIdx n _ hn
  have hmemPre : ∀ n ∈ pre, n ≠ opIdx := fun n hn hc => hno (hc ▸ hn)
  have hOpLt2 : ∀ u v, u < s.length → v < s.length →
      opLt (getOp (plStep P st opIdx).ops u) (getOp (plStep P st opIdx).ops v) =
        opLt (getOp st.ops u) (getOp st.ops v) := by
    intro u v hu hv
    refine opLtCongr ?_ ?_
    · by_cases h : u = opIdx
      · subst h; rw [hgetNew]; exact ⟨rfl, rfl, rfl, rfl, rfl, rfl⟩
      · rw [hgetOld u h]; exact sameCoreRefl _
    · by_cases h : v = opIdx
      · subst h; rw [hgetNew]; exact ⟨rfl, rfl, rfl, rfl, rfl, rfl⟩
      · rw [hgetOld v h]; exact sameCoreRefl _
  refine ⟨?_, ?_, ?_, ?_, ?_, ?_, ?_, ?_⟩
  · rw [hops2, List.length_set]; exact hlen
  · rw [hloads2, List.length_set]; exact hL
  · intro n hn
    by_cases h : n = opIdx
    · subst h
      rw [hgetNew]
      exact sameCoreTrans ⟨rfl, rfl, rfl, rfl, rfl, rfl⟩ (hcore n hn)
    · rw [hgetOld n h]; exact hcore n hn
  · intro n hn hnp
    have h1 : n ∉ pre := fun hc => hnp (List.mem_append_left _ hc)
    have h2 : n ≠ opIdx := fun hc =>
      hnp (List.mem_append_right _ (hc ▸ List.mem_cons_self opIdx []))
    rw [hgetOld n h2]
    exact hun n hn h1
  · intro n hn
    rcases List.mem_append.mp hn with h1 | h2
    · refine ⟨(hsch n h1).1, ?_⟩
      rw [hgetOld n (hmemPre n h1)]
      exact (hsch n h1).2
    · have h3 : n = opIdx := by
        rcases List.mem_cons.mp h2 with h | h
        · exact h
        · exact absurd h (List.not_mem_nil n)
      subst h3
      rw [hgetNew]
      exact ⟨hidx, rfl⟩
  · -- precedence
    intro n hn v hv hp
    rcases List.mem_append.mp hn with h1 | h2
    · -- an old operation: its producers are old and untouched
      have hnlt := (hsch n h1).1
      rw [hOpLt2 n v hnlt hv] at hp
      obtain ⟨hvpre, hvend⟩ := hprec n h1 v hv hp
      refine ⟨List.mem_append_left _ hvpre, ?_⟩
      rw [hgetOld n (hmemPre n h1), hgetOld v (hmemPre v hvpre)]
      exact hvend
    · -- the freshly popped operation
      have h3 : n = opIdx := by
        rcases List.mem_cons.mp h2 with h | h
        · exact h
        · exact absurd h (List.not_mem_nil n)
      subst h3
      rw [hOpLt2 n v hidx hv] at hp
      have hvpre := hprodPre v hv hp
      refine ⟨List.mem_append_left _ hvpre, ?_⟩
      rw [hgetOld v (hmemPre v hvpre), hgetNew]
      show (getOp st.ops v).start_time + (getOp st.ops v).fma ≤ strt
      calc (getOp st.ops v).start_time + (getOp st.ops v).fma ≤ earliest := by
            rw [hearliest]
            exact mopGeElem st.ops n (List.range st.ops.length) 0 v
              (List.mem_range.mpr (by rw [hlen]; exact hv)) hp
        _ ≤ strt := hstrtEarliest
  · -- thread bound and load cover
    intro n hn
    rcases List.mem_append.mp hn with h1 | h2
    · have hnlt := (hsch n h1).1
      obtain ⟨hth, hload⟩ := hthr n h1
      refine ⟨by rw [hgetOld n (hmemPre n h1)]; exact hth, ?_⟩
      rw [hgetOld n (hmemPre n h1), hloads2]
      by_cases hsame : (getOp st.ops n).thread = choice.1
      · rw [hsame, natGetDSetEq st.loads choice.1 _ (by rw [hL]; exact hthP)]
        rw [hsame] at hload
        calc (getOp st.ops n).start_time + (getOp st.ops n).fma ≤
              st.loads.getD choice.1 0 := hload
          _ ≤ strt := hstrtLoad
          _ ≤ strt + (getOp st.ops opIdx).fma := Nat.le_add_right _ _
      · rw [natGetDSetNe st.loads choice.1 _ _ hsame]
        exact hload
    · have h3 : n = opIdx := by
        rcases List.mem_cons.mp h2 with h | h
        · exact h
        · exact absurd h (List.not_mem_nil n)
      subst h3
      rw [hgetNew, hloads2]
      refine ⟨hthP, ?_⟩
      show strt + (getOp st.ops n).fma ≤
        (st.loads.set choice.1 (strt + (getOp st.ops n).fma)).getD choice.1 0
      rw [natGetDSetEq st.loads choice.1 _ (by rw [hL]; exact hthP)]
  · -- same-thread disjointness
    intro n hn m hm hnm hth
    rcases List.mem_append.mp hn with h1 | h2 <;>
      rcases List.mem_append.mp hm with g1 | g2
    · rw [hgetOld n (hmemPre n h1), hgetOld m (hmemPre m g1)]
      rw [hgetOld n (hmemPre n h1), hgetOld m (hmemPre m g1)] at hth
      exact hdisj n h1 m g1 hnm hth
    · have h3 : m = opIdx := by
        rcases List.mem_cons.mp g2 with h | h
        · exact h
        · exact absurd h (List.not_mem_nil m)
      subst h3
      rw [hgetOld n (hmemPre n h1), hgetNew] at hth
      obtain ⟨_, hload⟩ := hthr n h1
      rw [hgetOld n (hmemPre n h1), hgetNew]
      refine Or.inl ?_
      show (getOp st.ops n).start_time + (getOp st.ops n).fma ≤ strt
      have hth2 : (getOp st.ops n).thread = choice.1 := hth
      rw [hth2] at hload
      exact Nat.le_trans hload hstrtLoad
    · have h3 : n = opIdx := by
        rcases List.mem_cons.mp h2 with h | h
        · exact h
        · exact absurd h (List.not_mem_nil n)
      subst h3
      rw [hgetNew, hgetOld m (hmemPre m g1)] at hth
      obtain ⟨_, hload⟩ := hthr m g1
      rw [hgetNew, hgetOld m (hmemPre m g1)]
      refine Or.inr ?_
      show (getOp st.ops m).start_time + (getOp st.ops m).fma ≤ strt
      have hth2 : (getOp st.ops m).thread = choice.1 := hth.symm
      rw [hth2] at hload
      exact Nat.le_trans hload hstrtLoad
    · have h3 : n = opIdx := by
        rcases List.mem_cons.mp h2 with h | h
        · exact h
        · exact absurd h (List.not_mem_nil n)
      have h4 : m = opIdx := by
        rcases List.mem_cons.mp g2 with h | h
        · exact h
        · exact absurd h (List.not_mem_nil m)
      exact absurd (h3.trans h4.symm) hnm

/-- The whole queue loop preserves the priority-list invariant. -/
theorem plFoldInv (s : List Operation) (P : Nat) (hP : 0 < P)
    (Hlev : ∀ u v, u < s.length → v < s.length →
      opLt (getOp s u) (getOp s v) = true → seqLevel s u < seqLevel s v) :
    ∀ (rest pre : List Nat) (st : PLState),
      (∀ i ∈ pre ++ rest, i < s.length) →
      (pre ++ rest).Nodup →
      (pre ++ rest).Pairwise (fun a b => ¬plKeyLt s a b) →
      (∀ v, v < s.length → v ∈ pre ++ rest) →
      plInv s P pre st →
      plInv s P (pre ++ rest) (rest.foldl (plStep P) st) := by
  intro rest
  induction rest with
  | nil =>
    intro pre st _ _ _ _ hinv
    simpa using hinv
  | cons opIdx rest ih =>
    intro pre st hbounds hnodup hpw hcov hinv
    have hstep := plStepInv s P hP Hlev pre rest opIdx st hbounds hnodup hpw hcov hinv
    have e : pre ++ opIdx :: rest = (pre ++ [opIdx]) ++ rest := by simp
    have final := ih (pre ++ [opIdx]) (plStep P st opIdx)
      (e ▸ hbounds) (e ▸ hnodup) (e ▸ hpw) (fun v hv => e ▸ hcov v hv) hstep
    rw [e]
    exact final

/-- `PriorityListScheduler::schedule_impl`, run on a positive thread count,
a sequence whose producers strictly dominate their consumers in `level`, and
any pop order the priority queue can produce, returns a valid schedule with
the same operation cores. -/
theorem plRunFacts (s : List Operation) (P : Nat) (order : List Nat) (hP : 0 < P)
    (Hlev : ∀ u v, u < s.length → v < s.length →
      opLt (getOp s u) (getOp s v) = true → seqLevel s u < seqLevel s v)
    (hord : validPopOrder s order) :
    validSchedule (plRun s P order) ∧ coreEq (plRun s P order) s := by
  obtain ⟨hperm, hpw⟩ := hord
  have hbounds : ∀ i ∈ ([] : List Nat) ++ order, i < s.length := by
    intro i hi
    rw [List.nil_append] at hi
    exact List.mem_range.mp (hperm.mem_iff.mp hi)
  have hnodup : (([] : List Nat) ++ order).Nodup := by
    rw [List.nil_append]
    exact hperm.nodup_iff.mpr (List.nodup_range _)
  have hpw2 : (([] : List Nat) ++ order).Pairwise (fun a b => ¬plKeyLt s a b) := by
    rw [List.nil_append]; exact hpw
  have hcov : ∀ v, v < s.length → v ∈ ([] : List Nat) ++ order := by
    intro v hv
    rw [List.nil_append]
    exact hperm.mem_iff.mpr (List.mem_range.mpr hv)
  have hinit : plInv s P []
      { ops := resetScheduled s, loads := List.replicate P 0 } := by
    refine ⟨resetScheduledLength s, List.length_replicate P 0, ?_, ?_, ?_, ?_, ?_, ?_⟩
    · intro n hn; exact resetScheduledCore s n hn
    · intro n _ _; exact resetScheduledGetOp s n
    · intro n hn; exact absurd hn (List.not_mem_nil n)
    · intro n hn; exact absurd hn (List.not_mem_nil n)
    · intro n hn; exact absurd hn (List.not_mem_nil n)
    · intro n hn _ _; exact absurd hn (List.not_mem_nil n)
  have hfin := plFoldInv s P hP Hlev order [] _ hbounds hnodup hpw2 hcov hinit
  rw [List.nil_append] at hfin
  obtain ⟨hlen, _, hcore, _, hsch, hprec, _, hdisj⟩ := hfin
  have hres : plRun s P order =
      (order.foldl (plStep P)
        { ops := resetScheduled s, loads := List.replicate P 0 }).ops := rfl
  have hlenR : (plRun s P order).length = s.length := by rw [hres]; exact hlen
  have hmem : ∀ v, v < s.length → v ∈ order := fun v hv => by
    have := hcov v hv; rwa [List.nil_append] at this
  refine ⟨⟨?_, ?_, ?_⟩, hlenR, ?_⟩
  · intro u hu
    rw [hlenR] at hu
    rw [hres]
    exact (hsch u (hmem u hu)).2
  · intro u v hu hv hp
    rw [hlenR] at hu hv
    rw [hres] at hp ⊢
    exact (hprec u (hmem u hu) v hv hp).2
  · intro u v hu hv huv hth x hx
    rw [hlenR] at hu hv
    rw [hres] at hth hx
    rcases hdisj u (hmem u hu) v (hmem v hv) huv hth with h | h <;> omega
  · intro u hu
    rw [hlenR] at hu
    rw [hres]
    exact hcore u hu

/-! ### Claim C1 -/

/-- The concrete producer pair used to refute claim C1 as stated:
`c1a` multiplies `jac(2,2) * jac(1,0)` and produces `jac(2,0)`. -/
def c1a : Operation :=
  { action := Action.MULTIPLICATION, j := 2, k := 1, i := 0, fma := 6 }

/-- The concrete consumer used to refute claim C1 as stated: `c1b` consumes
`jac(5,3)` and `jac(2,0)`, the latter produced by `c1a`. -/
def c1b : Operation :=
  { action := Action.MULTIPLICATION, j := 5, k := 2, i := 0, fma := 30 }

/-- Claim C1, counterexample: with both actions set, `c1a` is a producer for
`c1b` according to the code (`c1a > c1b` is true), but the claimed formula
`b.action != ACCUMULATION && ((a.i == b.i && a.k == b.j) || (a.j == b.j &&
a.k + 1 == b.i))` is false at this pair, so the claimed equivalence fails. -/
theorem C1_counterexample :
    c1a.action ≠ Action.NONE ∧ c1b.action ≠ Action.NONE ∧
    opGt c1a c1b = true ∧
    ¬(c1b.action ≠ Action.ACCUMULATION ∧
      ((c1a.i = c1b.i ∧ c1a.k = c1b.j) ∨ (c1a.j = c1b.j ∧ c1a.k + 1 = c1b.i))) := by
  decide

/-- Claim C1 (amended): for operations with set actions, `a` is a producer
for `b` (computed as `a > b`, equivalently `b < a`) iff
`b.action != ACCUMULATION` and either `b.i == a.i && b.k == a.j` (the right
input of `b` is produced by `a`) or `b.j == a.j && b.k + 1 == a.i` (the left
input of `b` is produced by `a`); the roles of `a` and `b` in the two index
clauses are the mirror image of the ones the claim stated. -/
theorem C1_amended_producer_characterisation (a b : Operation)
    (_ha : a.action ≠ Action.NONE) (_hb : b.action ≠ Action.NONE) :
    (opGt a b = true ↔
      (b.action ≠ Action.ACCUMULATION ∧
        ((b.i = a.i ∧ b.k = a.j) ∨ (b.j = a.j ∧ b.k + 1 = a.i)))) ∧
    opGt a b = opLt b a := by
  refine ⟨?_, rfl⟩
  simp [opGt, ne_eq]

/-- Witness for `C1_amended_producer_characterisation` at the concrete pair
`c1a`, `c1b`. -/
theorem C1_amended_witness :
    (opGt c1a c1b = true ↔
      (c1b.action ≠ Action.ACCUMULATION ∧
        ((c1b.i = c1a.i ∧ c1b.k = c1a.j) ∨ (c1b.j = c1a.j ∧ c1b.k + 1 = c1a.i)))) ∧
    opGt c1a c1b = opLt c1b c1a :=
  C1_amended_producer_characterisation c1a c1b (by decide) (by decide)

/-! ### Claim C4 -/

/-- Claim C4: `Sequence::critical_path()` equals the maximum over all
operations of the accumulated cost along the explicit chain
`u -> parent(u) -> ...` (running end `max(start_time, accumulated end) + fma`
at each step), and for an operation with no parent `critical_path(u)` returns
`start_time(u) + fma(u)`. -/
theorem C4_critical_path_characterisation (s : List Operation) :
    criticalPath s = specCriticalPath s ∧
    (∀ u, u < s.length → seqParent s u = none →
      criticalPathFrom s s.length u 0 =
        (getOp s u).start_time + (getOp s u).fma) := by
  constructor
  · -- pointwise equality of the recursive walk and the chain fold
    have key : ∀ fuel opIdx st0,
        criticalPathFrom s fuel opIdx st0 =
          (parentChain s fuel opIdx).foldl
            (fun acc idx => max acc (getOp s idx).start_time + (getOp s idx).fma) st0 := by
      intro fuel
      induction fuel with
      | zero => intro opIdx st0; rfl
      | succ f ih =>
        intro opIdx st0
        simp only [criticalPathFrom, parentChain]
        cases h : seqParent s opIdx with
        | none => simp [List.foldl]
        | some p => simp [List.foldl, ih]
    have key2 : ∀ idx, criticalPathFrom s s.length idx 0 =
        specChainCost s (parentChain s s.length idx) := by
      intro idx
      rw [key]
      rfl
    unfold criticalPath specCriticalPath maxFold
    simp only [key2]
  · intro u hu hp
    have hs : 1 ≤ s.length := Nat.lt_of_lt_of_le (Nat.zero_lt_succ _) hu
    obtain ⟨f, hf⟩ : ∃ f, s.length = f + 1 :=
      ⟨s.length - 1, (Nat.succ_pred_eq_of_pos hs).symm⟩
    rw [hf]
    simp [criticalPathFrom, hp]

/-- Witness for `C4_critical_path_characterisation` on a concrete two-element
sequence whose second operation has no parent. -/
theorem C4_witness :
    criticalPath [c1a, c1b] = specCriticalPath [c1a, c1b] ∧
    (1 < [c1a, c1b].length ∧ seqParent [c1a, c1b] 1 = none ∧
      criticalPathFrom [c1a, c1b] [c1a, c1b].length 1 0 =
        (getOp [c1a, c1b] 1).start_time + (getOp [c1a, c1b] 1).fma) :=
  ⟨(C4_critical_path_characterisation [c1a, c1b]).1,
    by decide,
    by decide,
    (C4_critical_path_characterisation [c1a, c1b]).2 1 (by decide) (by decide)⟩

/-! ### Claim C5 -/

/-- Concrete accumulation for the C5 failing input: `ACC (0,0,0)`, cost 5. -/
def c5Acc : Operation :=
  { action := Action.ACCUMULATION, mode := Mode.TANGENT, j := 0, k := 0, i := 0, fma := 5 }

/-- Concrete multiplication for the C5 failing input: `MUL (1,0,0)`, cost 3,
consuming the product of `c5Acc`. -/
def c5Mul : Operation :=
  { action := Action.MULTIPLICATION, j := 1, k := 0, i := 0, fma := 3 }

/-- Claim C5 is violated by the code: on the unscheduled two-operation
sequence `[c5Acc, c5Mul]` (well within `MAX_SEQUENCE_LENGTH`),
`Sequence::critical_path()` accumulates `fma` along the parent chain and
returns `5 + 3 = 8`, while `device_critical_path` only takes the maximum of
the individual end times along the chain and returns `5`.  The two
embeddings of the critical-path query are not equivalent. -/
theorem C5_device_critical_path_diverges :
    [c5Acc, c5Mul].length ≤ MAX_SEQUENCE_LENGTH ∧
    criticalPath [c5Acc, c5Mul] = 8 ∧
    deviceCriticalPath [c5Acc, c5Mul] = 5 := by
  decide

/-! ### Claim C7 -/

/-- The four possible outcomes of the entry section of
`BranchAndBoundOptimizer::add_elimination`
(`optimizer/branch_and_bound.hpp` lines 159-221). -/
inductive ElimOutcome where
  | timeUp
  | leaf
  | pruned
  | descend
deriving DecidableEq

/-- The entry section of `BranchAndBoundOptimizer::add_elimination`
(`optimizer/branch_and_bound.hpp` lines 159-221): return if time is up;
otherwise if the root Jacobian is accumulated, handle the leaf; otherwise
compute `lb = sequence.critical_path()` and prune (incrementing the pruned
counter for the current sequence length) iff `lb >= m_makespan` or
`lb > m_upper_bound`; otherwise descend into the elimination loop.
Returns the outcome together with the updated pruned-branch counters. -/
def addElimEntry (timeLeft rootAccumulated : Bool) (s : List Operation)
    (mstar ub : Nat) (counters : List Nat) : ElimOutcome × List Nat :=
  if !timeLeft then (ElimOutcome.timeUp, counters)
  else if rootAccumulated then (ElimOutcome.leaf, counters)
  else
    let lb := criticalPath s
    if mstar ≤ lb ∨ ub < lb then
      (ElimOutcome.pruned, counters.set s.length (counters.getD s.length 0 + 1))
    else (ElimOutcome.descend, counters)

/-- Claim C7: in the elimination phase, with time remaining and the root
Jacobian not yet accumulated, the branch is pruned (and only then) exactly
when `lb = sequence.critical_path()` satisfies `lb >= m_makespan` (the shared
best makespan) or `lb > m_upper_bound`; when it prunes, the pruned counter at
index `sequence.length()` is incremented and nothing else happens; moreover a
prune outcome can arise in no other circumstances. -/
theorem C7_pruning_characterisation (timeLeft rootAccumulated : Bool)
    (s : List Operation) (mstar ub : Nat) (counters : List Nat) :
    ((addElimEntry timeLeft rootAccumulated s mstar ub counters).1 = ElimOutcome.pruned ↔
      (timeLeft = true ∧ rootAccumulated = false ∧
        (mstar ≤ criticalPath s ∨ ub < criticalPath s))) ∧
    (addElimEntry true false s mstar ub counters =
      (if mstar ≤ criticalPath s ∨ ub < criticalPath s then
        (ElimOutcome.pruned, counters.set s.length (counters.getD s.length 0 + 1))
       else (ElimOutcome.descend, counters))) := by
  constructor
  · by_cases h : mstar ≤ criticalPath s ∨ ub < criticalPath s <;>
      cases timeLeft <;> cases rootAccumulated <;>
      simp [addElimEntry, h]
  · rfl

/-! ### Claim C8 -/

/-- Claim C8: `Scheduler::schedule` passes `usable_threads` equal to the
number of accumulations when the requested count is `0` or at least that
number, and equal to the requested count otherwise; the effective count never
exceeds `count_accumulations`, and a requested count of `0` means
unconstrained up to `count_accumulations`. -/
theorem C8_usable_threads (s : List Operation) (threads : Nat) :
    scheduleUsableThreads s threads =
      (if threads = 0 ∨ countAccumulations s ≤ threads then countAccumulations s
       else threads) ∧
    scheduleUsableThreads s threads ≤ countAccumulations s ∧
    (threads = 0 → scheduleUsableThreads s threads = countAccumulations s) := by
  unfold scheduleUsableThreads
  refine ⟨?_, ?_, ?_⟩
  · split_ifs <;> omega
  · split_ifs <;> omega
  · intro h; split_ifs <;> omega

/-! ### Claim C10 -/

/-- Claim C10: for every sequence containing at least one accumulation,
`Scheduler::schedule` passes a strictly positive `usable_threads` to
`schedule_impl`, so the division `(idling_time + sequential_makespan) /
usable_threads` in the branch-and-bound lower bound never divides by zero on
this path. -/
theorem C10_usable_threads_positive (s : List Operation) (threads : Nat)
    (h : 1 ≤ countAccumulations s) :
    1 ≤ scheduleUsableThreads s threads := by
  unfold scheduleUsableThreads
  split <;> omega

/-- Witness for `C10_usable_threads_positive`: a one-accumulation sequence
with requested thread count `0`. -/
theorem C10_witness :
    1 ≤ countAccumulations [c5Acc] ∧ 1 ≤ scheduleUsableThreads [c5Acc] 0 :=
  ⟨by decide, C10_usable_threads_positive [c5Acc] 0 (by decide)⟩

/-! ### Claim C6 -/

/-- Claim C6: at a DFS node of `BranchAndBoundScheduler::schedule_impl`,
when thread `t` is actually tried (the equivalent-empty-processor break does
not fire), the tentative placement sets `start_time = max(thread_load, start)`,
adds `start_time - thread_load` to the idling time and refreshes the
makespan; the search recurses if and only if `max(lb, makespan) < best` with
`lb = max((idling_time + sequential_makespan) / usable_threads,
working.critical_path())` on the tentatively updated state; otherwise the
tentative assignment is undone exactly — the loop continues on the next
thread from precisely the entry state. -/
theorem C6_branch_condition (timeOK : Nat → Bool) (seqMs P lb0 fuel idx start t : Nat)
    (ts : List Nat) (triedEmpty : Bool) (s : BnbState)
    (hbreak : ¬(s.loads.getD t 0 = 0 ∧ triedEmpty)) :
    (max (max ((s.idling + (max (s.loads.getD t 0) start - s.loads.getD t 0) + seqMs) / P)
          (criticalPath (setStart s.working idx (max (s.loads.getD t 0) start))))
        (max s.mkspan (max (s.loads.getD t 0) start + (getOp s.working idx).fma)) < s.best →
      bnbThreadLoop timeOK seqMs P lb0 (fuel + 1) idx start (t :: ts) triedEmpty s =
        (let startTime := max (s.loads.getD t 0) start
         let s1 : BnbState :=
           { s with
             working := setStart s.working idx startTime
             loads := s.loads.set t (startTime + (getOp s.working idx).fma)
             idling := s.idling + (startTime - s.loads.getD t 0)
             mkspan := max s.mkspan (startTime + (getOp s.working idx).fma) }
         let r := bnbFrame timeOK seqMs P lb0 fuel
           { s1 with working := setThread s1.working idx t }
         if r.2 then (r.1, true)
         else
           bnbThreadLoop timeOK seqMs P lb0 fuel idx start ts
             (triedEmpty || decide (s.loads.getD t 0 = 0))
             { r.1 with
               loads := r.1.loads.set t (s.loads.getD t 0)
               idling := s.idling
               mkspan := s.mkspan
               working := setStart r.1.working idx ((getOp s.working idx).start_time) })) ∧
    (¬(max (max ((s.idling + (max (s.loads.getD t 0) start - s.loads.getD t 0) + seqMs) / P)
          (criticalPath (setStart s.working idx (max (s.loads.getD t 0) start))))
        (max s.mkspan (max (s.loads.getD t 0) start + (getOp s.working idx).fma)) < s.best) →
      bnbThreadLoop timeOK seqMs P lb0 (fuel + 1) idx start (t :: ts) triedEmpty s =
        bnbThreadLoop timeOK seqMs P lb0 fuel idx start ts
          (triedEmpty || decide (s.loads.getD t 0 = 0)) s) := by
  exact ⟨fun hc => tlStepDescend timeOK seqMs P lb0 fuel idx start t ts
      triedEmpty s hbreak hc,
    fun hc => tlStepSkip timeOK seqMs P lb0 fuel idx start t ts
      triedEmpty s hbreak hc⟩

/-- Witness for `C6_branch_condition` on a concrete one-operation state whose
thread 0 is already loaded (so the break does not fire). -/
theorem C6_witness :
    let s : BnbState :=
      { working := [{ c5Mul with is_scheduled := true }], loads := [4],
        mkspan := 4, idling := 0, best := 100, out := [c5Mul], clock := 0 }
    ¬(s.loads.getD 0 0 = 0 ∧ false) ∧
    (¬(max (max ((s.idling + (max (s.loads.getD 0 0) 0 - s.loads.getD 0 0) + 3) / 1)
          (criticalPath (setStart s.working 0 (max (s.loads.getD 0 0) 0))))
        (max s.mkspan (max (s.loads.getD 0 0) 0 + (getOp s.working 0).fma)) < s.best) →
      bnbThreadLoop (fun _ => true) 3 1 0 1 0 0 (0 :: []) false s =
        bnbThreadLoop (fun _ => true) 3 1 0 0 0 0 [] (false || decide (s.loads.getD 0 0 = 0)) s) :=
  ⟨by decide,
    (C6_branch_condition (fun _ => true) 3 1 0 0 0 0 0 [] false _ (by decide)).2⟩

/-! ### Claim C2, counterexample part -/

/-- Counterexample producer: `MUL (1,0,0)`, cost 5, producing `jac(1,0)`. -/
def c2v : Operation := { action := Action.MULTIPLICATION, j := 1, k := 0, i := 0, fma := 5 }

/-- First consumer of `c2v` in scan order: `MUL (2,1,0)`, cost 1. -/
def c2d : Operation := { action := Action.MULTIPLICATION, j := 2, k := 1, i := 0, fma := 1 }

/-- Second consumer of `c2v`: `MUL (3,1,0)`, cost 10. -/
def c2u : Operation := { action := Action.MULTIPLICATION, j := 3, k := 1, i := 0, fma := 10 }

/-- Consumer of `c2u`: `MUL (4,3,0)`, cost 1 (gives `c2u` level 2). -/
def c2w : Operation := { action := Action.MULTIPLICATION, j := 4, k := 3, i := 0, fma := 1 }

/-- The counterexample sequence for claim C2: `c2v` has two consumers, its
`parent` is `c2d` (level 1), so `level(c2v) = level(c2u) = 2` although `c2v`
is a producer for `c2u`. -/
def c2seq : List Operation := [c2v, c2d, c2u, c2w]

/-- The pop order the priority queue is forced into on `c2seq` (descending
`(level, fma)` keys: `c2u (2,10)`, `c2v (2,5)`, then the level-1 roots). -/
def c2order : List Nat := [2, 0, 1, 3]

/-- Claim C2, counterexample: running `PriorityListScheduler::schedule_impl`
on `c2seq` with one thread and the (forced) pop order `c2order` completes,
yet the resulting schedule starts consumer `c2u` at time 5 while its
producer `c2v` only ends at time 20, violating
`u.start_time >= v.start_time + v.fma`. -/
theorem C2_counterexample :
    validPopOrder c2seq c2order ∧
    (opLt (getOp (plRun c2seq 1 c2order) 2) (getOp (plRun c2seq 1 c2order) 0) = true ∧
      (getOp (plRun c2seq 1 c2order) 2).start_time <
        (getOp (plRun c2seq 1 c2order) 0).start_time +
          (getOp (plRun c2seq 1 c2order) 0).fma) := by
  refine ⟨⟨?_, ?_⟩, ?_⟩
  · decide
  · decide
  · decide

/-- Claim C2 (amended): the priority-list scheduler produces a complete
schedule respecting producer precedence with disjoint per-thread intervals
provided the thread count is positive, every producer strictly dominates its
consumers in `level` (the condition the claim was missing — the
counterexample violates it), and the pop order is one the priority queue can
produce; and the branch-and-bound scheduler either leaves the sequence
untouched (no complete schedule found) or returns a valid schedule. -/
theorem C2_amended (s : List Operation) (P : Nat) (order : List Nat)
    (timeOK : Nat → Bool) (fuel : Nat) (orig : List Operation) (Q ub : Nat)
    (hP : 0 < P)
    (Hlev : ∀ u v, u < s.length → v < s.length →
      opLt (getOp s u) (getOp s v) = true → seqLevel s u < seqLevel s v)
    (hord : validPopOrder s order) :
    validSchedule (plRun s P order) ∧
    ((bnbScheduleImpl timeOK fuel orig Q ub).2 = orig ∨
      validSchedule (bnbScheduleImpl timeOK fuel orig Q ub).2) := by
  constructor
  · exact (plRunFacts s P order hP Hlev hord).1
  · rcases (bnbScheduleImplFacts timeOK fuel orig Q ub).1 with h | ⟨hv, _⟩
    · exact Or.inl h
    · exact Or.inr hv

/-- Witness for `C2_amended` on the two-operation chain `[c5Acc, c5Mul]`
with one thread and the forced pop order `[0, 1]`. -/
theorem C2_amended_witness :
    0 < 1 ∧
    (∀ u v, u < [c5Acc, c5Mul].length → v < [c5Acc, c5Mul].length →
      opLt (getOp [c5Acc, c5Mul] u) (getOp [c5Acc, c5Mul] v) = true →
      seqLevel [c5Acc, c5Mul] u < seqLevel [c5Acc, c5Mul] v) ∧
    validPopOrder [c5Acc, c5Mul] [0, 1] ∧
    (validSchedule (plRun [c5Acc, c5Mul] 1 [0, 1]) ∧
      ((bnbScheduleImpl (fun _ => true) 8 [c5Acc] 1 100).2 = [c5Acc] ∨
        validSchedule (bnbScheduleImpl (fun _ => true) 8 [c5Acc] 1 100).2)) := by
  have Hlev : ∀ u v, u < [c5Acc, c5Mul].length → v < [c5Acc, c5Mul].length →
      opLt (getOp [c5Acc, c5Mul] u) (getOp [c5Acc, c5Mul] v) = true →
      seqLevel [c5Acc, c5Mul] u < seqLevel [c5Acc, c5Mul] v := by
    intro u v hu hv
    have hu2 : u = 0 ∨ u = 1 := by have : u < 2 := hu; omega
    have hv2 : v = 0 ∨ v = 1 := by have : v < 2 := hv; omega
    rcases hu2 with rfl | rfl <;> rcases hv2 with rfl | rfl <;> decide
  exact ⟨Nat.one_pos, Hlev, by decide,
    C2_amended [c5Acc, c5Mul] 1 [0, 1] (fun _ => true) 8 [c5Acc] 1 100
      Nat.one_pos Hlev (by decide)⟩

/-! ### Claim C3 -/

/-- The unscheduled one-operation sequence used to refute claim C3 as
stated: a single accumulation of cost `9`. -/
def c3base : Operation :=
  { action := Action.ACCUMULATION, mode := Mode.TANGENT, j := 0, k := 0, i := 0, fma := 9 }

/-- A valid — but needlessly delayed — schedule of `[c3base]`: the single
operation placed on thread `0` at start time `100`. -/
def c3op : Operation := { c3base with start_time := 100, is_scheduled := true }

/-- Claim C3, counterexample: `sequential_makespan(S)` is not an upper bound
on the makespan of every valid schedule of `S`.  `[c3op]` is a valid schedule
of the unscheduled sequence `[c3base]` (same cores, complete, precedence
respected, no overlap), yet its makespan `109` exceeds
`sequential_makespan [c3base] = 9`. -/
theorem C3_counterexample :
    coreEq [c3base] [c3op] ∧ zeroStarts [c3base] ∧
    validSchedule [c3op] ∧
    sequentialMakespan [c3base] < seqMakespan [c3op] := by
  refine ⟨by decide, by decide, ⟨by decide, ?_, ?_⟩, by decide⟩
  · intro u v hu hv hp
    have hu0 : u = 0 := Nat.lt_one_iff.mp hu
    have hv0 : v = 0 := Nat.lt_one_iff.mp hv
    subst hu0; subst hv0
    exact absurd hp (by decide)
  · intro u v hu hv huv _
    have hu0 : u = 0 := Nat.lt_one_iff.mp hu
    have hv0 : v = 0 := Nat.lt_one_iff.mp hv
    subst hu0; subst hv0
    exact absurd rfl huv

/-- Claim C3 (amended): the critical path of an unscheduled sequence is a
lower bound on the makespan of every valid schedule of the same operations,
and the makespan returned by the branch-and-bound scheduler — whenever it
finds a schedule, i.e. returns a value below the supplied upper bound — is
sandwiched between `critical_path` and `sequential_makespan` of its input;
`sequential_makespan` bounds the schedule the scheduler returns, not every
valid schedule. -/
theorem C3_amended (S T orig : List Operation) (timeOK : Nat → Bool)
    (fuel P ub : Nat)
    (hcore : coreEq S T) (hz : zeroStarts S) (hvalid : validSchedule T)
    (hz2 : zeroStarts orig)
    (hfound : (bnbScheduleImpl timeOK fuel orig P ub).1 < ub) :
    criticalPath S ≤ seqMakespan T ∧
    criticalPath orig ≤ (bnbScheduleImpl timeOK fuel orig P ub).1 ∧
    (bnbScheduleImpl timeOK fuel orig P ub).1 ≤ sequentialMakespan orig := by
  refine ⟨?_, ?_, ?_⟩
  · exact cpLowerBound S T hcore.1 hcore.2 hz hvalid.2.1
  · exact ((bnbScheduleImplFacts timeOK fuel orig P ub).2 hfound).1 hz2
  · exact ((bnbScheduleImplFacts timeOK fuel orig P ub).2 hfound).2

/-- Witness for `C3_amended`: the valid schedule `[c3op]` of `[c3base]`, and
a concrete branch-and-bound run on the one-accumulation sequence `[c5Acc]`. -/
theorem C3_amended_witness :
    coreEq [c3base] [c3op] ∧ zeroStarts [c3base] ∧
    (allScheduled [c3op] ∧ respectsPrecedence [c3op] ∧ noThreadOverlap [c3op]) ∧
    zeroStarts [c5Acc] ∧
    (bnbScheduleImpl (fun _ => true) 8 [c5Acc] 1 100).1 < 100 ∧
    (criticalPath [c3base] ≤ seqMakespan [c3op] ∧
      criticalPath [c5Acc] ≤ (bnbScheduleImpl (fun _ => true) 8 [c5Acc] 1 100).1 ∧
      (bnbScheduleImpl (fun _ => true) 8 [c5Acc] 1 100).1 ≤
        sequentialMakespan [c5Acc]) := by
  have hvalid : validSchedule [c3op] := by
    refine ⟨by decide, ?_, ?_⟩
    · intro u v hu hv hp
      have hu0 : u = 0 := Nat.lt_one_iff.mp hu
      have hv0 : v = 0 := Nat.lt_one_iff.mp hv
      subst hu0; subst hv0
      exact absurd hp (by decide)
    · intro u v hu hv huv _
      have hu0 : u = 0 := Nat.lt_one_iff.mp hu
      have hv0 : v = 0 := Nat.lt_one_iff.mp hv
      subst hu0; subst hv0
      exact absurd rfl huv
  exact ⟨by decide, by decide, hvalid, by decide, by decide,
    C3_amended [c3base] [c3op] [c5Acc] (fun _ => true) 8 1 100
      (by decide) (by decide) hvalid (by decide) (by decide)⟩

/-! ### Claim C9 -/

/-- Modelled from the spec: the `jcdp::Jacobian` record (`jacobian.hpp` is
not part of the sources at hand; spec section "Jacobian chain state"): a
sub-range `[i, j]` of the chain with matrix dimensions `m × n`, the memory
proxy `edges_in_dag`, the `is_accumulated` / `is_used` state bits, and its
accumulation and elimination cost queries `fma<TANGENT>()`,
`fma<ADJOINT>()`, `fma<TANGENT>(n)` and `fma<ADJOINT>(m)`, kept abstract as
cost fields. -/
structure Jacobian where
  m : Nat := 0
  n : Nat := 0
  edges_in_dag : Nat := 0
  is_accumulated : Bool := false
  is_used : Bool := false
  fmaTangentAcc : Nat := 0
  fmaAdjointAcc : Nat := 0
  fmaTangentElim : Nat → Nat := fun _ => 0
  fmaAdjointElim : Nat → Nat := fun _ => 0

/-- Modelled from the spec: the `jcdp::JacobianChain` view used by the
optimiser (`jacobian_chain.hpp` is not part of the sources at hand): its
length and the `get_jacobian(j, i)` accessor. -/
structure JacobianChain where
  len : Nat := 0
  jac : Nat → Nat → Jacobian := fun _ _ => {}

/-- `BranchAndBoundOptimizer::cheapest_accumulation`
(`optimizer/branch_and_bound.hpp` lines 245-264): a tangent accumulation of
`jac(j, j)`, switched to adjoint mode when the memory gate
(`m_available_memory == 0 || m_available_memory >= jac.edges_in_dag`) admits
it and the adjoint cost is strictly cheaper. -/
def cheapestAccumulation (chain : JacobianChain) (memory : Nat) (j : Nat) :
    Operation :=
  let jac := chain.jac j j
  let op : Operation :=
    { action := Action.ACCUMULATION, mode := Mode.TANGENT,
      j := j, k := j, i := j, fma := jac.fmaTangentAcc }
  if memory = 0 ∨ jac.edges_in_dag ≤ memory then
    if jac.fmaAdjointAcc < op.fma then
      { op with mode := Mode.ADJOINT, fma := jac.fmaAdjointAcc }
    else op
  else op

/-- `BranchAndBoundOptimizer::push_possible_eliminations`
(`optimizer/branch_and_bound.hpp` lines 266-352): the candidate pair pushed
for the most recent operation `(op_j, op_i)`.  Left slot: when
`op_j < chain.length() - 1`, scan `j = length - 1` down to `op_j + 1` for an
accumulated, unused `jac(j, op_j + 1)` and propose the multiplication; when
the scan falls through and `m_matrix_free` holds, propose the tangent
elimination at `(op_j + 1, op_j, op_i)`.  Right slot: when `op_i > 0`, scan
`i = 0` up to `op_i - 1` for an accumulated, unused `jac(op_i - 1, i)` and
propose the multiplication; when the scan falls through, `m_matrix_free`
holds and the memory gate admits it, propose the adjoint elimination at
`(op_j, op_i - 1, op_i - 1)`. -/
def pushPossibleEliminations (chain : JacobianChain) (matrixFree : Bool)
    (memory : Nat) (op_j op_i : Nat) : Option Operation × Option Operation :=
  let ops0 : Option Operation :=
    if op_j < chain.len - 1 then
      let k := op_j
      let ki := chain.jac k op_i
      match ((List.range (chain.len - 1 - k)).map (fun t => chain.len - 1 - t)).find?
          (fun j => (chain.jac j (k + 1)).is_accumulated &&
            !(chain.jac j (k + 1)).is_used) with
      | some j =>
        some { action := Action.MULTIPLICATION, j := j, k := k, i := op_i,
               fma := (chain.jac j (k + 1)).m * ki.m * ki.n }
      | none =>
        if matrixFree then
          some { action := Action.ELIMINATION, mode := Mode.TANGENT,
                 j := k + 1, k := k, i := op_i,
                 fma := (chain.jac (k + 1) (k + 1)).fmaTangentElim ki.n }
        else none
    else none
  let ops1 : Option Operation :=
    if 0 < op_i then
      let k := op_i - 1
      let jk := chain.jac op_j (k + 1)
      match (List.range (k + 1)).find?
          (fun i => (chain.jac k i).is_accumulated &&
            !(chain.jac k i).is_used) with
      | some i =>
        some { action := Action.MULTIPLICATION, j := op_j, k := k, i := i,
               fma := jk.m * (chain.jac k i).m * (chain.jac k i).n }
      | none =>
        if matrixFree then
          if memory = 0 ∨ (chain.jac k k).edges_in_dag ≤ memory then
            some { action := Action.ELIMINATION, mode := Mode.ADJOINT,
                   j := op_j, k := k, i := k,
                   fma := (chain.jac k k).fmaAdjointElim jk.m }
          else none
        else none
    else none
  (ops0, ops1)

/-- Claim C9: with `m_matrix_free = false`, every candidate that
`push_possible_eliminations` proposes (in either slot of the pair, whenever
the slot is filled) is a MULTIPLICATION — the two ELIMINATION branches are
gated on `m_matrix_free` — and `cheapest_accumulation` always returns an
ACCUMULATION; hence every operation the optimiser can ever append to a
sequence under `matrix_free = false` is an ACCUMULATION or a
MULTIPLICATION, and no ELIMINATION appears. -/
theorem C9_matrix_free_off (chain : JacobianChain) (memory : Nat)
    (op_j op_i jx : Nat) :
    (pushPossibleEliminations chain false memory op_j op_i).1.all
      (fun o => o.action == Action.MULTIPLICATION) = true ∧
    (pushPossibleEliminations chain false memory op_j op_i).2.all
      (fun o => o.action == Action.MULTIPLICATION) = true ∧
    (cheapestAccumulation chain memory jx).action = Action.ACCUMULATION := by
  refine ⟨?_, ?_, ?_⟩
  · show (if op_j < chain.len - 1 then _ else _ : Option Operation).all _ = true
    split
    · split
      · simp [Option.all]
      · simp [Option.all]
    · simp [Option.all]
  · show (if 0 < op_i then _ else _ : Option Operation).all _ = true
    split
    · split
      · simp [Option.all]
      · simp [Option.all]
    · simp [Option.all]
  · unfold cheapestAccumulation
    dsimp only
    split_ifs <;> rfl

end JCDP
